import Mathlib

/-!
# Verification of the rifflux hybrid retrieval engine core

Shallow embedding, in Lean 4, of the core algorithms of the `rifflux`
repository (a local hybrid retrieval engine over Markdown files), together
with theorems settling the specification claims about them.

Conventions used throughout:

* Python strings are modelled as `List Char` (`Str`); byte strings as
  `List Nat` with every element `< 256`.
* Python floats are modelled by exact rationals (`ℚ`).  Where the source
  normalizes by an L2 norm (a square root), the embedding keeps the
  pre-normalization vector together with its squared norm, so every
  statement about the normalized vector's length is phrased in terms of
  squared norms — exact and executable.
* The SQLite database is modelled as explicit record state with list-backed
  tables; operations that can violate a constraint return `Except`.
* External collaborators (the SQLite FTS engine, `hashlib`, the thread
  scheduler) are either parameters of the embedded functions or modelled
  explicitly (SHA-256 is implemented bit-for-bit from FIPS 180-4, the
  algorithm `hashlib.sha256` computes).
-/

namespace Rifflux

/-- Python `str` modelled as a list of characters. -/
abbrev Str := List Char

/-- Characters of a Lean string literal, used to write concrete inputs. -/
def str (s : String) : Str := s.data

/-! ## `rifflux/retrieval/rrf.py` — Reciprocal Rank Fusion

Source:
```
def rrf_fuse(rankings: dict[str, list[str]], *, k: int = 60) -> dict[str, float]:
    scores: dict[str, float] = {}
    for ranked_ids in rankings.values():
        for rank, item_id in enumerate(ranked_ids, start=1):
            scores[item_id] = scores.get(item_id, 0.0) + (1.0 / (k + rank))
    return dict(sorted(scores.items(), key=lambda kv: kv[1], reverse=True))
```
A Python `dict` is modelled as an insertion-ordered association list with
no duplicate keys; `rankings.values()` is the list of rankings in insertion
order.  `sorted(..., key=value, reverse=True)` is a stable sort by
descending value, modelled extensionally by a stable descending insertion
sort (`sortByScoreDesc`): the same function as Python's stable sort with
every comparison reversed. -/

/-- `scores[item_id] = scores.get(item_id, 0.0) + v` on an insertion-ordered
association list: update in place if the key is present, else append. -/
def bumpScore : List (Str × ℚ) → Str → ℚ → List (Str × ℚ)
  | [], id, v => [(id, v)]
  | (key, s) :: rest, id, v =>
      if key = id then (key, s + v) :: rest else (key, s) :: bumpScore rest id v

/-- The inner `for rank, item_id in enumerate(ranked_ids, start=1)` loop,
with `rank` the 1-based rank of the head of `ranked`. -/
def addRanking (k : ℕ) : List (Str × ℚ) → List Str → ℕ → List (Str × ℚ)
  | scores, [], _ => scores
  | scores, id :: rest, rank =>
      addRanking k (bumpScore scores id (1 / ((k : ℚ) + rank))) rest (rank + 1)

/-- Insert `p` into a descending-sorted list, after every entry whose score
is strictly larger — the position Python's stable descending sort gives an
element that precedes the rest of the input. -/
def insertDesc (p : Str × ℚ) : List (Str × ℚ) → List (Str × ℚ)
  | [] => [p]
  | q :: rest => if p.2 < q.2 then q :: insertDesc p rest else p :: q :: rest

/-- Stable descending sort by score: the model of
`sorted(scores.items(), key=lambda kv: kv[1], reverse=True)`. -/
def sortByScoreDesc : List (Str × ℚ) → List (Str × ℚ)
  | [] => []
  | p :: rest => insertDesc p (sortByScoreDesc rest)

/-- `rrf_fuse` (retrieval/rrf.py).  `rankings` is the list of the dict's
values in insertion order. -/
def rrf_fuse (rankings : List (List Str)) (k : ℕ := 60) : List (Str × ℚ) :=
  sortByScoreDesc (rankings.foldl (fun scores ranked => addRanking k scores ranked 1) [])

/-- The score the specification assigns to `id` inside one ranked list whose
head sits at 1-based rank `rank`: the sum of `1/(k+r)` over the ranks `r`
at which `id` occurs. -/
def listScore (k : ℕ) (id : Str) : List Str → ℕ → ℚ
  | [], _ => 0
  | x :: rest, rank =>
      (if x = id then 1 / ((k : ℚ) + rank) else 0) + listScore k id rest (rank + 1)

/-- The specification's fused score of `id`: the sum of its `listScore`s
over all input rankings. -/
def specScore (rankings : List (List Str)) (k : ℕ) (id : Str) : ℚ :=
  (rankings.map (fun ranked => listScore k id ranked 1)).sum

/-- First-match association lookup with default `0` (`scores.get(id, 0.0)`). -/
def scoreOf : List (Str × ℚ) → Str → ℚ
  | [], _ => 0
  | (key, s) :: rest, id => if key = id then s else scoreOf rest id

/-- The keys of a score association list, in order. -/
def keysOf (scores : List (Str × ℚ)) : List Str := scores.map Prod.fst

/-! ## `rifflux/indexing/background.py` — background job queue -/

/-- ASCII lowercasing, the model of `str.lower()` on the messages involved. -/
def lowerStr (s : Str) : Str := s.map Char.toLower

/-- `needle` is a prefix of `haystack`. -/
def startsWith : Str → Str → Bool
  | [], _ => true
  | _ :: _, [] => false
  | c :: cs, d :: ds => c == d && startsWith cs ds

/-- Python's `needle in haystack` substring test. -/
def hasSub (haystack needle : Str) : Bool :=
  startsWith needle haystack ||
    match haystack with
    | [] => false
    | _ :: rest => hasSub rest needle

/-- A Python exception as far as the job manager inspects it: whether it is a
`sqlite3.OperationalError`, and its `str()` message. -/
structure PyExc where
  isOperationalError : Bool
  message : Str
deriving DecidableEq

/-- `_is_transient` (indexing/background.py): a `sqlite3.OperationalError`
whose lowercased message contains `"locked"` or `"busy"`. -/
def is_transient (exc : PyExc) : Bool :=
  exc.isOperationalError &&
    (hasSub (lowerStr exc.message) (str "locked") || hasSub (lowerStr exc.message) (str "busy"))

/-- Job lifecycle states. -/
inductive JobStatus | queued | running | completed | failed
deriving DecidableEq

/-- What `_execute_with_retry` leaves on the job, plus `calls`, the number of
times the callback was invoked (instrumentation the claim asks about). -/
structure RetryOutcome (A : Type) where
  status : JobStatus
  result : Option A
  error : Option Str
  retries : ℕ
  calls : ℕ
deriving DecidableEq

/-- The `while True` loop of `_execute_with_retry`, entered with the retry
counter `attempt`.  `run n` is the outcome of the `(n+1)`-st callback
invocation; `shutdownWait n` is what `self._shutdown_event.wait(...)`
returns during the wait that precedes retry number `n`. -/
def retryLoop {A : Type} (maxRetries : ℕ) (run : ℕ → Except PyExc A)
    (shutdownWait : ℕ → Bool) (attempt : ℕ) : RetryOutcome A :=
  match run attempt with
  | .ok r => ⟨.completed, some r, none, attempt, attempt + 1⟩
  | .error exc =>
      if h : is_transient exc ∧ attempt < maxRetries then
        if shutdownWait (attempt + 1) then
          ⟨.failed, none, some (str "cancelled: server shutdown during retry"),
            attempt + 1, attempt + 1⟩
        else retryLoop maxRetries run shutdownWait (attempt + 1)
      else ⟨.failed, none, some exc.message, attempt, attempt + 1⟩
termination_by maxRetries - attempt
decreasing_by omega

/-- `_execute_with_retry` (indexing/background.py): the loop starting at
`attempt = 0`. -/
def executeWithRetry {A : Type} (maxRetries : ℕ) (run : ℕ → Except PyExc A)
    (shutdownWait : ℕ → Bool) : RetryOutcome A :=
  retryLoop maxRetries run shutdownWait 0

/-- A job as the shutdown path inspects it. -/
structure BgJob where
  status : JobStatus
  error : Option Str
deriving DecidableEq

/-- Background indexer state: the `_jobs` dict (insertion-ordered association
list), the `_queue` deque, and the `_shutdown_event` flag. -/
structure BgState where
  jobs : List (Str × BgJob)
  queue : List Str
  shutdownFlag : Bool
deriving DecidableEq

/-- `submit` (indexing/background.py): raises if shut down, else appends a
`queued` job.  `jobId` stands for the fresh `uuid4().hex[:12]`. -/
def submit (s : BgState) (jobId : Str) : Except Str BgState :=
  if s.shutdownFlag then .error (str "BackgroundIndexer is shut down")
  else .ok { jobs := s.jobs ++ [(jobId, ⟨.queued, none⟩)],
             queue := s.queue ++ [jobId],
             shutdownFlag := s.shutdownFlag }

/-- One iteration of shutdown's cancel loop: `job = self._jobs.get(job_id)`,
and if it exists with status `queued`, mark it failed with the cancel
reason. -/
def markCancelled (jobs : List (Str × BgJob)) (id : Str) : List (Str × BgJob) :=
  jobs.map fun p =>
    if p.1 = id ∧ p.2.status = .queued
    then (p.1, ⟨.failed, some (str "cancelled: server shutdown")⟩)
    else p

/-- `shutdown` (indexing/background.py): set the shutdown flag, drain the
queue marking still-queued jobs failed.  (Joining the worker thread has no
effect on this state.) -/
def shutdown (s : BgState) : BgState :=
  { jobs := s.queue.foldl markCancelled s.jobs, queue := [], shutdownFlag := true }

/-! ## `rifflux/db/sqlite_store.py` — FTS query compilation and `lexical_search`

The SQLite FTS engine is an external collaborator: it is modelled as an
oracle `exec : Str → Except Str (List Row)` mapping the compiled MATCH
string either to result rows or to an error message (`str(exc)`).

`re.findall(r"\\w+", query)` extracts the maximal runs of word characters;
on ASCII text (all queries the claim names) Python's `\\w` is exactly
alphanumeric-or-underscore, which is how `isWordChar` is defined. -/

/-- A word character of `\w`: alphanumeric or underscore (ASCII reading). -/
def isWordChar (c : Char) : Bool := c.isAlphanum || c = '_'

/-- Accumulator pass of `re.findall` for a single-character-class-plus
pattern: `acc` is the reversed current run of matching characters. -/
def tokenRuns (p : Char → Bool) : Str → Str → List Str
  | [], acc => if acc = [] then [] else [acc.reverse]
  | c :: rest, acc =>
      if p c then tokenRuns p rest (c :: acc)
      else if acc = [] then tokenRuns p rest []
      else acc.reverse :: tokenRuns p rest []

/-- `re.findall(r"\w+", s)`: the maximal runs of word characters, in order. -/
def findWords (s : Str) : List Str := tokenRuns isWordChar s []

/-- Join a list of strings with a separator (`sep.join(parts)`). -/
def joinSep (sep : Str) : List Str → Str
  | [] => []
  | [p] => p
  | p :: rest => p ++ sep ++ joinSep sep rest

/-- `f'"{term}"'`: the term wrapped in double quotes. -/
def quoteTerm (t : Str) : Str := '"' :: (t ++ ['"'])

/-- `_compile_fts_query` (db/sqlite_store.py): quoted terms joined by
`" OR "`; `None` when there are no terms. -/
def _compile_fts_query (query : Str) : Option Str :=
  let terms := (findWords query).filter (fun t => ¬ t = [])
  if terms = [] then none
  else some (joinSep (str " OR ") (terms.map quoteTerm))

/-- `_normalize_fts_query` (db/sqlite_store.py): bare terms joined by a
space; `None` when there are no terms. -/
def _normalize_fts_query (query : Str) : Option Str :=
  let terms := (findWords query).filter (fun t => ¬ t = [])
  if terms = [] then none
  else some (joinSep (str " ") terms)

/-- `_is_fts_query_error` (db/sqlite_store.py): whether the lowercased
message is in the FTS syntax-error class. -/
def _is_fts_query_error (msg : Str) : Bool :=
  let m := lowerStr msg
  hasSub m (str "fts5:") || hasSub m (str "no such column") ||
    hasSub m (str "unterminated string") || hasSub m (str "malformed match") ||
    hasSub m (str "syntax error")

/-- `SqliteStore.lexical_search` (db/sqlite_store.py), with the engine as
the oracle `exec`: run the compiled primary form; on an FTS syntax-class
error fall back to the bare space-joined terms; errors of other classes
(and any error of the fallback itself) propagate. -/
def lexical_search {Row : Type} (exec : Str → Except Str (List Row)) (query : Str) :
    Except Str (List Row) :=
  match _compile_fts_query query with
  | none => .ok []
  | some compiled =>
      match exec compiled with
      | .ok rows => .ok rows
      | .error msg =>
          if _is_fts_query_error msg then
            match _normalize_fts_query query with
            | none => .ok []
            | some safe => exec safe
          else .error msg

/-! ## SHA-256 (FIPS 180-4)

`hashlib.sha256` and the chunk-id hashing both delegate to SHA-256; it is
implemented here bit-for-bit from FIPS 180-4 over byte lists (`List ℕ`,
each element `< 256`), purely with kernel-reducible `Nat` arithmetic.
The two FIPS test vectors below pin the implementation down. -/

/-- Truncation to a 32-bit word. -/
def w32 (x : ℕ) : ℕ := x % 4294967296

/-- 32-bit rotate right. -/
def rotr32 (x n : ℕ) : ℕ := w32 ((x >>> n) ||| (x <<< (32 - n)))

/-- 32-bit bitwise complement. -/
def not32 (x : ℕ) : ℕ := 4294967295 - w32 x

/-- The SHA-256 `Ch` function. -/
def ch32 (x y z : ℕ) : ℕ := (x &&& y) ^^^ (not32 x &&& z)

/-- The SHA-256 `Maj` function. -/
def maj32 (x y z : ℕ) : ℕ := (x &&& y) ^^^ (x &&& z) ^^^ (y &&& z)

/-- The SHA-256 `Σ₀` function. -/
def bsig0 (x : ℕ) : ℕ := rotr32 x 2 ^^^ rotr32 x 13 ^^^ rotr32 x 22

/-- The SHA-256 `Σ₁` function. -/
def bsig1 (x : ℕ) : ℕ := rotr32 x 6 ^^^ rotr32 x 11 ^^^ rotr32 x 25

/-- The SHA-256 `σ₀` function. -/
def ssig0 (x : ℕ) : ℕ := rotr32 x 7 ^^^ rotr32 x 18 ^^^ (x >>> 3)

/-- The SHA-256 `σ₁` function. -/
def ssig1 (x : ℕ) : ℕ := rotr32 x 17 ^^^ rotr32 x 19 ^^^ (x >>> 10)

/-- The 64 SHA-256 round constants. -/
def sha256K : List ℕ := [
  1116352408, 1899447441, 3049323471, 3921009573,
  961987163, 1508970993, 2453635748, 2870763221,
  3624381080, 310598401, 607225278, 1426881987,
  1925078388, 2162078206, 2614888103, 3248222580,
  3835390401, 4022224774, 264347078, 604807628,
  770255983, 1249150122, 1555081692, 1996064986,
  2554220882, 2821834349, 2952996808, 3210313671,
  3336571891, 3584528711, 113926993, 338241895,
  666307205, 773529912, 1294757372, 1396182291,
  1695183700, 1986661051, 2177026350, 2456956037,
  2730485921, 2820302411, 3259730800, 3345764771,
  3516065817, 3600352804, 4094571909, 275423344,
  430227734, 506948616, 659060556, 883997877,
  958139571, 1322822218, 1537002063, 1747873779,
  1955562222, 2024104815, 2227730452, 2361852424,
  2428436474, 2756734187, 3204031479, 3329325298]

/-- The SHA-256 initial hash state. -/
def sha256H0 : List ℕ :=
  [1779033703, 3144134277, 1013904242, 2773480762,
   1359893119, 2600822924, 528734635, 1541459225]

/-- A 64-bit big-endian byte encoding. -/
def be64 (n : ℕ) : List ℕ := [56, 48, 40, 32, 24, 16, 8, 0].map fun k => (n >>> k) % 256

/-- SHA-256 message padding: `128`, zeros to 56 mod 64, 8-byte bit length. -/
def sha256pad (msg : List ℕ) : List ℕ :=
  msg ++ 128 :: (List.replicate ((119 - msg.length % 64) % 64) 0 ++ be64 (8 * msg.length))

/-- Big-endian grouping of bytes into 32-bit words. -/
def toWords : List ℕ → List ℕ
  | b0 :: b1 :: b2 :: b3 :: rest => (((b0 * 256 + b1) * 256 + b2) * 256 + b3) :: toWords rest
  | _ => []

/-- One extension step of the SHA-256 message schedule. -/
def scheduleStep (w : List ℕ) : List ℕ :=
  let t := w.length
  w ++ [w32 (ssig1 (w.getD (t - 2) 0) + w.getD (t - 7) 0 +
    ssig0 (w.getD (t - 15) 0) + w.getD (t - 16) 0)]

/-- The full 64-word message schedule of one block. -/
def fullSchedule (block : List ℕ) : List ℕ :=
  (List.range 48).foldl (fun w _ => scheduleStep w) block

/-- One SHA-256 round, with `kw` the precombined `Kₜ + Wₜ`. -/
def sha256Round (st : List ℕ) (kw : ℕ) : List ℕ :=
  match st with
  | [a, b, c, d, e, f, g, h] =>
      let T1 := w32 (h + bsig1 e + ch32 e f g + kw)
      let T2 := w32 (bsig0 a + maj32 a b c)
      [w32 (T1 + T2), a, b, c, w32 (d + T1), e, f, g]
  | other => other

/-- Compression of one 16-word block into the hash state. -/
def sha256Compress (hs block : List ℕ) : List ℕ :=
  let kw := (sha256K.zip (fullSchedule block)).map fun p => w32 (p.1 + p.2)
  let fin := kw.foldl sha256Round hs
  (hs.zip fin).map fun p => w32 (p.1 + p.2)

/-- Fold the compression over consecutive 16-word blocks (fuel-indexed;
the fuel is instantiated with the word count, an upper bound on blocks). -/
def sha256Blocks : ℕ → List ℕ → List ℕ → List ℕ
  | 0, hs, _ => hs
  | _ + 1, hs, [] => hs
  | fuel + 1, hs, ws => sha256Blocks fuel (sha256Compress hs (ws.take 16)) (ws.drop 16)

/-- Big-endian bytes of one 32-bit word. -/
def wordBE (w : ℕ) : List ℕ := [24, 16, 8, 0].map fun k => (w >>> k) % 256

/-- SHA-256 of a byte string: the 32-byte digest. -/
def sha256 (msg : List ℕ) : List ℕ :=
  let ws := toWords (sha256pad msg)
  ((sha256Blocks ws.length sha256H0 ws).map wordBE).flatten

/-- UTF-8 bytes of an ASCII string (every string hashed by the embedder and
the chunk-id scheme is ASCII, where UTF-8 is the identity on code points). -/
def strBytes (s : Str) : List ℕ := s.map Char.toNat

/-! ## `rifflux/embeddings/hash_embedder.py`

`hash_embed` accumulates, for each token of `TOKEN_RE` over the lowercased
text, a signed weight derived from the token's SHA-256 digest into a
`dim`-length vector, then L2-normalizes when the norm is positive.  The
accumulator is exact over `ℚ`; the final normalization divides by
`√(sumSq)`, so statements about the returned vector divide by
`Real.sqrt` in the theorems (the definitions stay executable). -/

/-- A character of `TOKEN_RE`: ASCII letter, digit, underscore, dot, slash or dash. -/
def isHashTokenChar (c : Char) : Bool :=
  c.isAlphanum || c = '_' || c = '.' || c = '/' || c = '-'

/-- `TOKEN_RE.findall(text.lower())`. -/
def hashTokens (text : Str) : List Str := tokenRuns isHashTokenChar (lowerStr text) []

/-- The concrete digest function of the source: SHA-256 of the token's
UTF-8 bytes (tokens are ASCII by construction of `TOKEN_RE`). -/
def shaTok (t : Str) : List ℕ := sha256 (strBytes t)

/-- `int.from_bytes(digest[:4], "big") % dim`. -/
def tokenIndex (dim : ℕ) (digest : List ℕ) : ℕ :=
  (((digest.getD 0 0 * 256 + digest.getD 1 0) * 256 + digest.getD 2 0) * 256
    + digest.getD 3 0) % dim

/-- `sign * weight`: sign from the low bit of `digest[4]`, weight
`1.0 + digest[5]/255.0`. -/
def signedWeight (digest : List ℕ) : ℚ :=
  (if digest.getD 4 0 % 2 = 1 then -1 else 1) * (1 + (digest.getD 5 0 : ℚ) / 255)

/-- The accumulation loop of `hash_embed` (`vec[index] += sign * weight`
over all tokens), before normalization.  `sha` is the digest function. -/
def hashAccum (sha : Str → List ℕ) (text : Str) (dim : ℕ) : List ℚ :=
  (hashTokens text).foldl
    (fun v tok =>
      let digest := sha tok
      let i := tokenIndex dim digest
      v.set i (v.getD i 0 + signedWeight digest))
    (List.replicate dim 0)

/-- The squared L2 norm of a rational vector. -/
def sumSq (v : List ℚ) : ℚ := (v.map fun x => x * x).sum

/-! ## `rifflux/indexing/chunker.py`

The mistune Markdown parser is an external collaborator; a parsed document
is modelled as a flat list of `MdNode`s carrying exactly the data
`chunk_markdown` reads out of each AST node (`_extract_text` flattens any
non-heading, non-code node to its raw text, so that text is the node's
payload here). -/

/-- A flattened mistune AST block node. -/
inductive MdNode
  | heading (level : ℕ) (text : Str)
  | blockCode (info : Str) (raw : Str)
  | other (text : Str)
deriving DecidableEq

/-- Python's `str.strip()` whitespace class. -/
def isPySpace (c : Char) : Bool :=
  c = ' ' || c = '\t' || c = '\n' || c = '\r' || c = '\x0b' || c = '\x0c'

/-- Python `str.strip()`: drop whitespace from both ends. -/
def stripStr (s : Str) : Str :=
  ((s.dropWhile isPySpace).reverse.dropWhile isPySpace).reverse

/-- `normalize_path` (indexing/chunker.py): backslashes to slashes, strip
leading slashes. -/
def normalize_path (p : Str) : Str :=
  (p.map fun c => if c = '\\' then '/' else c).dropWhile (fun c => c = '/')

/-- A lowercase-hex digit. -/
def hexDigit (n : ℕ) : Char := Char.ofNat (if n < 10 then 48 + n else 87 + n)

/-- Two-digit lowercase hex of one byte. -/
def byteHex (b : ℕ) : Str := [hexDigit (b / 16), hexDigit (b % 16)]

/-- `make_chunk_id` (indexing/chunker.py): first 16 hex characters of the
SHA-256 of `f"{normalize_path(path)}::{chunk_index}"`. -/
def make_chunk_id (path : Str) (chunk_index : ℕ) : Str :=
  (((sha256 (strBytes (normalize_path path ++ str "::" ++ (Nat.repr chunk_index).data))).map
    byteHex).flatten).take 16

/-- `len(re.findall(r"\S+", s))`: the count of non-whitespace runs. -/
def tokenCount (s : Str) : ℕ := (tokenRuns (fun c => !isPySpace c) s []).length

/-- The fenced-code part: `f"```{info}\n{code_body}\n```".strip()`. -/
def fenceStr (info raw : Str) : Str :=
  stripStr (str "```" ++ info ++ str "\n" ++ raw ++ str "\n```")

/-- The heading breadcrumb `" > ".join(part for _, part in heading_stack if part)`. -/
def breadcrumb (stack : List (ℕ × Str)) : Str :=
  joinSep (str " > ") ((stack.filter fun h => ¬ h.2 = []).map Prod.snd)

/-- `sections[-1][1].append(part)`. -/
def appendToLast (sections : List (Str × List Str)) (part : Str) : List (Str × List Str) :=
  match sections with
  | [] => []
  | [last] => [(last.1, last.2 ++ [part])]
  | sec :: rest => sec :: appendToLast rest part

/-- The section-building loop of `chunk_markdown`: headings maintain the
pruned heading stack and open a new section; code blocks and other
non-empty blocks are appended to the current section's parts. -/
def buildSections : List MdNode → List (ℕ × Str) → List (Str × List Str) → List (Str × List Str)
  | [], _, sections => sections
  | .heading level text :: rest, stack, sections =>
      let stack1 := (stack.filter fun h => h.1 < level) ++ [(level, stripStr text)]
      buildSections rest stack1 (sections ++ [(breadcrumb stack1, [])])
  | .blockCode info raw :: rest, stack, sections =>
      buildSections rest stack (appendToLast sections (fenceStr info raw))
  | .other text :: rest, stack, sections =>
      if stripStr text = [] then buildSections rest stack sections
      else buildSections rest stack (appendToLast sections (stripStr text))

/-- The sections of a document: the loop started with heading stack `[]`
and `sections = [("", [])]`. -/
def sectionsOf (ast : List MdNode) : List (Str × List Str) :=
  buildSections ast [] [(str "", [])]

/-- A chunk record as built by `chunk_markdown`. -/
structure MChunk where
  chunk_id : Str
  chunk_index : ℕ
  heading_path : Str
  content : Str
  token_count : ℕ
deriving DecidableEq

/-- `"\n\n"`-joining of accumulated parts. -/
def joinNN (ps : List Str) : Str := joinSep (str "\n\n") ps

/-- The per-section accumulation loop of `chunk_markdown`: grow `current`
while the proposal fits in `max_chunk_chars`; emit when it would overflow
and `current` has at least `min_chunk_chars`; flush the trailing buffer if
it meets the minimum after stripping. -/
def emitSection (path : Str) (maxC minC : ℕ) (headingPath : Str) :
    List Str → Str → ℕ → List MChunk × ℕ
  | [], current, idx =>
      if minC ≤ (stripStr current).length then
        ([⟨make_chunk_id path idx, idx, headingPath, stripStr current, tokenCount current⟩],
          idx + 1)
      else ([], idx)
  | part :: rest, current, idx =>
      let proposal := if current = [] then part else current ++ str "\n\n" ++ part
      if proposal.length ≤ maxC then
        emitSection path maxC minC headingPath rest proposal idx
      else if minC ≤ current.length then
        let c : MChunk :=
          ⟨make_chunk_id path idx, idx, headingPath, stripStr current, tokenCount current⟩
        let r := emitSection path maxC minC headingPath rest part (idx + 1)
        (c :: r.1, r.2)
      else emitSection path maxC minC headingPath rest part idx

/-- The outer loop of `chunk_markdown` over sections, threading the global
`chunk_index`. -/
def chunkSections (path : Str) (maxC minC : ℕ) :
    List (Str × List Str) → ℕ → List MChunk
  | [], _ => []
  | (heading, parts) :: rest, idx =>
      if parts = [] then chunkSections path maxC minC rest idx
      else
        let r := emitSection path maxC minC heading parts [] idx
        r.1 ++ chunkSections path maxC minC rest r.2

/-- `chunk_markdown` (indexing/chunker.py) over a parsed document. -/
def chunk_markdown (ast : List MdNode) (path : Str)
    (maxC : ℕ := 2000) (minC : ℕ := 120) : List MChunk :=
  chunkSections path maxC minC (sectionsOf ast) 0

/-- A string neither starts nor ends with strip-whitespace (trivially true
when empty). -/
def IsStripped (s : Str) : Prop :=
  (∀ c, s.head? = some c → isPySpace c = false)
  ∧ (∀ c, s.reverse.head? = some c → isPySpace c = false)

/-! ## `rifflux/db/sqlite_store.py` — the relational store

The SQLite database is modelled as explicit record state with list-backed
tables kept in insertion order.  The schema itself (`db/schema.sql`) is not
part of the sources; its constraints are modelled from the spec:
`files.path` UNIQUE, `chunks.chunk_id` UNIQUE with cascading delete from
files, `embeddings.chunk_id` primary key referencing chunks with cascading
delete, foreign keys enforced (`PRAGMA foreign_keys=ON`).  Operations that
can violate a constraint return `Except`. -/

/-- A row of `files`. -/
structure FileRow where
  id : ℕ
  path : Str
  mtime_ns : ℤ
  size_bytes : ℤ
  sha256hex : Str
deriving DecidableEq

/-- A row of `chunks`. -/
structure ChunkRow where
  chunk_id : Str
  file_id : ℕ
  chunk_index : ℕ
  heading_path : Str
  content : Str
  token_count : ℕ
deriving DecidableEq

/-- A row of `embeddings` (the vector blob is reduced to its `dim`; no
claim inspects the stored bytes). -/
structure EmbeddingRow where
  chunk_id : Str
  model : Str
  dim : ℕ
deriving DecidableEq

/-- The database state: the three tables plus the autoincrement counter
backing `files.id`. -/
structure DbState where
  files : List FileRow
  chunks : List ChunkRow
  embeddings : List EmbeddingRow
  nextId : ℕ
deriving DecidableEq

/-- `get_all_file_meta` (db/sqlite_store.py): the bulk `path → row` map. -/
def get_all_file_meta (s : DbState) (p : Str) : Option FileRow :=
  s.files.find? fun f => decide (f.path = p)

/-- `upsert_file` (db/sqlite_store.py): insert-or-update on `path`
conflict, then resolve the row id. -/
def upsert_file (s : DbState) (path : Str) (mtime_ns size_bytes : ℤ) (sha : Str) :
    DbState × ℕ :=
  match s.files.find? fun f => decide (f.path = path) with
  | some f =>
      ({ s with files := s.files.map fun g =>
          if g.path = path then
            { g with mtime_ns := mtime_ns, size_bytes := size_bytes, sha256hex := sha }
          else g }, f.id)
  | none =>
      ({ s with
          files := s.files ++ [(⟨s.nextId, path, mtime_ns, size_bytes, sha⟩ : FileRow)]
          nextId := s.nextId + 1 },
        s.nextId)

/-- `delete_chunks_for_file` (db/sqlite_store.py), with the spec's cascade
from chunks to embeddings. -/
def delete_chunks_for_file (s : DbState) (fid : ℕ) : DbState :=
  let doomedCids := (s.chunks.filter fun c => decide (c.file_id = fid)).map ChunkRow.chunk_id
  { s with
      chunks := s.chunks.filter fun c => !decide (c.file_id = fid)
      embeddings := s.embeddings.filter fun e =>
        !(doomedCids.any fun cid => decide (cid = e.chunk_id)) }

/-- `insert_chunk` (db/sqlite_store.py): plain INSERT; violating the
`chunk_id` UNIQUE constraint fails the transaction. -/
def insert_chunk (s : DbState) (row : ChunkRow) : Except Str DbState :=
  if s.chunks.any fun c => decide (c.chunk_id = row.chunk_id) then
    .error (str "UNIQUE constraint failed: chunks.chunk_id")
  else .ok { s with chunks := s.chunks ++ [row] }

/-- `insert_embedding` (db/sqlite_store.py): upsert on `chunk_id`, subject
to the foreign key into `chunks`. -/
def insert_embedding (s : DbState) (cid model : Str) (dim : ℕ) : Except Str DbState :=
  if ¬ s.chunks.any fun c => decide (c.chunk_id = cid) then
    .error (str "FOREIGN KEY constraint failed")
  else if s.embeddings.any fun e => decide (e.chunk_id = cid) then
    .ok { s with embeddings := s.embeddings.map fun e =>
      if e.chunk_id = cid then ⟨cid, model, dim⟩ else e }
  else .ok { s with embeddings := s.embeddings ++ [⟨cid, model, dim⟩] }

/-- Delete the files satisfying `pred`, cascading to their chunks and to
those chunks' embeddings. -/
def deleteFilesWhere (s : DbState) (pred : FileRow → Bool) : DbState :=
  let doomedIds := (s.files.filter pred).map FileRow.id
  let doomedCids := (s.chunks.filter fun c =>
    doomedIds.any fun i => decide (i = c.file_id)).map ChunkRow.chunk_id
  { files := s.files.filter fun f => !pred f
    chunks := s.chunks.filter fun c => !(doomedIds.any fun i => decide (i = c.file_id))
    embeddings := s.embeddings.filter fun e =>
      !(doomedCids.any fun cid => decide (cid = e.chunk_id))
    nextId := s.nextId }

/-- `delete_files_except` (db/sqlite_store.py): with an empty `paths` list
it counts and deletes every row of `files`; otherwise it counts and deletes
the rows whose path is not in `paths`. -/
def delete_files_except (s : DbState) (paths : List Str) : DbState × ℕ :=
  if paths = [] then
    (deleteFilesWhere s fun _ => true, s.files.length)
  else
    (deleteFilesWhere s (fun f => !(paths.any fun p => decide (p = f.path))),
      (s.files.filter fun f => !(paths.any fun p => decide (p = f.path))).length)

/-- `index_status` (db/sqlite_store.py): the three table counts. -/
def index_status (s : DbState) : ℕ × ℕ × ℕ :=
  (s.files.length, s.chunks.length, s.embeddings.length)

/-! ## `rifflux/indexing/indexer.py` — `Indexer.reindex_path`

The filesystem walk (`root.rglob`), `stat` and `read_bytes` are external:
a candidate file is a record of its normalized relative path, stat data,
raw bytes, and the mistune parse of its decoded text.  `ReindexResult.reads`
instruments which files had their bytes read, so the stat fast-path's
"without reading file bytes" is statable. -/

/-- One candidate file under the root. -/
structure FsFile where
  rel : Str
  mtime_ns : ℤ
  size_bytes : ℤ
  bytes : List ℕ
  ast : List MdNode
deriving DecidableEq

/-- `fnmatch.fnmatch` for the glob features the configuration uses
(`*` and `?`; no character classes appear in any default). -/
def starLoop (k : List Char → Bool) : List Char → Bool
  | [] => k []
  | c :: cs => k (c :: cs) || starLoop k cs

/-- Glob matching: pattern against name. -/
def globMatch : List Char → List Char → Bool
  | [], name => name.isEmpty
  | '*' :: ps, name => starLoop (globMatch ps) name
  | '?' :: ps, name =>
      match name with
      | [] => false
      | _ :: cs => globMatch ps cs
  | p :: ps, name =>
      match name with
      | [] => false
      | c :: cs => p == c && globMatch ps cs

/-- `Indexer._is_included`: at least one include glob matches. -/
def is_included (globs : List Str) (rel : Str) : Bool :=
  globs.any fun pat => globMatch pat rel

/-- `Indexer._is_excluded`: at least one exclude glob matches. -/
def is_excluded (globs : List Str) (rel : Str) : Bool :=
  globs.any fun pat => globMatch pat rel

/-- `hashlib.sha256(content_bytes).hexdigest()`. -/
def sha256hexStr (bytes : List ℕ) : Str := ((sha256 bytes).map byteHex).flatten

/-- The result dict of `reindex_path`, plus the `reads` instrumentation. -/
structure ReindexResult where
  indexed_files : ℕ
  skipped_files : ℕ
  seen_paths : List Str
  reads : List Str
deriving DecidableEq

/-- The per-chunk body of the indexing loop: insert the chunk row and its
embedding, in source order. -/
def insertChunks (model : Str) (embed : Str → List ℚ) (fid : ℕ) :
    DbState → List MChunk → Except Str DbState
  | s, [] => .ok s
  | s, c :: rest => do
      let s1 ← insert_chunk s
        ⟨c.chunk_id, fid, c.chunk_index, c.heading_path, c.content, c.token_count⟩
      let s2 ← insert_embedding s1 c.chunk_id model (embed c.content).length
      insertChunks model embed fid s2 rest

/-- The full-reindex branch for one file: upsert the file row, delete its
chunks (cascading), re-chunk and insert chunk+embedding pairs. -/
def indexFile (maxC minC : ℕ) (model : Str) (embed : Str → List ℚ)
    (s : DbState) (f : FsFile) (sha : Str) : Except Str DbState := do
  let r := upsert_file s f.rel f.mtime_ns f.size_bytes sha
  let s2 := delete_chunks_for_file r.1 r.2
  insertChunks model embed r.2 s2 (chunk_markdown f.ast f.rel maxC minC)

/-- The `for file_path in file_candidates` loop of `reindex_path`.
`metaMap` is the bulk map loaded once before the loop. -/
def reindexLoop (maxC minC : ℕ) (model : Str) (embed : Str → List ℚ)
    (inc exc : List Str) (force : Bool) (metaMap : Str → Option FileRow) :
    List FsFile → DbState → ReindexResult → Except Str (DbState × ReindexResult)
  | [], s, r => .ok (s, r)
  | f :: rest, s, r =>
      if is_included inc f.rel = false ∨ is_excluded exc f.rel = true then
        reindexLoop maxC minC model embed inc exc force metaMap rest s r
      else
        let r := { r with seen_paths := r.seen_paths ++ [f.rel] }
        match metaMap f.rel with
        | some m =>
            if ¬ force ∧ m.mtime_ns = f.mtime_ns ∧ m.size_bytes = f.size_bytes then
              reindexLoop maxC minC model embed inc exc force metaMap rest s
                { r with skipped_files := r.skipped_files + 1 }
            else
              let r := { r with reads := r.reads ++ [f.rel] }
              let sha := sha256hexStr f.bytes
              if ¬ force ∧ m.sha256hex = sha then
                reindexLoop maxC minC model embed inc exc force metaMap rest
                  (upsert_file s f.rel f.mtime_ns f.size_bytes sha).1
                  { r with skipped_files := r.skipped_files + 1 }
              else do
                let s2 ← indexFile maxC minC model embed s f sha
                reindexLoop maxC minC model embed inc exc force metaMap rest s2
                  { r with indexed_files := r.indexed_files + 1 }
        | none =>
            let r := { r with reads := r.reads ++ [f.rel] }
            let sha := sha256hexStr f.bytes
            do
              let s2 ← indexFile maxC minC model embed s f sha
              reindexLoop maxC minC model embed inc exc force metaMap rest s2
                { r with indexed_files := r.indexed_files + 1 }

/-- `Indexer.reindex_path` (indexing/indexer.py) over the candidate list
produced by the filesystem walk. -/
def reindex_path (maxC minC : ℕ) (model : Str) (embed : Str → List ℚ)
    (inc exc : List Str) (force : Bool) (candidates : List FsFile) (s : DbState) :
    Except Str (DbState × ReindexResult) :=
  reindexLoop maxC minC model embed inc exc force (get_all_file_meta s)
    candidates s ⟨0, 0, [], []⟩

/-- The ordered chunk indexes of one file's chunks. -/
def chunkIdxs (s : DbState) (fid : ℕ) : List ℕ :=
  (s.chunks.filter fun c => decide (c.file_id = fid)).map ChunkRow.chunk_index

/-- The data-model invariants of the store (spec §3): unique file ids and
paths, foreign keys, unique chunk ids, per-file contiguous chunk indexes,
and a one-to-one correspondence between chunks and embeddings. -/
def Inv (s : DbState) : Prop :=
  (s.files.map FileRow.id).Nodup
  ∧ (s.files.map FileRow.path).Nodup
  ∧ (∀ f ∈ s.files, f.id < s.nextId)
  ∧ (∀ c ∈ s.chunks, ∃ f ∈ s.files, c.file_id = f.id)
  ∧ (s.chunks.map ChunkRow.chunk_id).Nodup
  ∧ (∀ f ∈ s.files, chunkIdxs s f.id = List.range (chunkIdxs s f.id).length)
  ∧ (s.embeddings.map EmbeddingRow.chunk_id).Nodup
  ∧ (∀ e ∈ s.embeddings, e.chunk_id ∈ s.chunks.map ChunkRow.chunk_id)
  ∧ (∀ c ∈ s.chunks, c.chunk_id ∈ s.embeddings.map EmbeddingRow.chunk_id)

/-! ## Theorems -/

/-! ## Theorems -/

/-! ### Lemmas about the score accumulation and the sort -/

theorem scoreOf_bumpScore (scores : List (Str × ℚ)) (id j : Str) (v : ℚ) :
    scoreOf (bumpScore scores id v) j =
      scoreOf scores j + (if id = j then v else 0) := by
  induction scores with
  | nil => simp [bumpScore, scoreOf, eq_comm]
  | cons p rest ih =>
      obtain ⟨key, s⟩ := p
      by_cases hk : key = id
      · subst hk
        by_cases hj : key = j
        · subst hj
          simp [bumpScore, scoreOf]
        · simp [bumpScore, scoreOf, hj]
      · by_cases hj : key = j
        · subst hj
          have hij : ¬ id = key := fun h => hk h.symm
          simp [bumpScore, scoreOf, hk, hij]
        · simp [bumpScore, scoreOf, hk, hj, ih]

theorem mem_keysOf_iff (scores : List (Str × ℚ)) (j : Str) :
    j ∈ keysOf scores ↔ ∃ s, (j, s) ∈ scores := by
  rw [keysOf, List.mem_map]
  constructor
  · rintro ⟨⟨a, b⟩, hmem, rfl⟩
    exact ⟨b, hmem⟩
  · rintro ⟨s, hs⟩
    exact ⟨(j, s), hs, rfl⟩

theorem mem_keysOf_bumpScore (scores : List (Str × ℚ)) (id j : Str) (v : ℚ) :
    j ∈ keysOf (bumpScore scores id v) ↔ j ∈ keysOf scores ∨ j = id := by
  induction scores with
  | nil => simp [bumpScore, keysOf, eq_comm]
  | cons p rest ih =>
      obtain ⟨key, s⟩ := p
      by_cases hk : key = id
      · subst hk
        constructor
        · intro h
          exact Or.inl (by simpa [bumpScore, keysOf] using h)
        · intro h
          rcases h with h | h
          · simpa [bumpScore, keysOf] using h
          · simp [bumpScore, keysOf, h]
      · rw [bumpScore, if_neg hk]
        have e1 : keysOf ((key, s) :: bumpScore rest id v) = key :: keysOf (bumpScore rest id v) := rfl
        have e2 : keysOf ((key, s) :: rest) = key :: keysOf rest := rfl
        rw [e1, e2, List.mem_cons, List.mem_cons, ih]
        tauto

theorem nodup_keysOf_bumpScore (scores : List (Str × ℚ)) (id : Str) (v : ℚ)
    (h : (keysOf scores).Nodup) : (keysOf (bumpScore scores id v)).Nodup := by
  induction scores with
  | nil => simp [bumpScore, keysOf]
  | cons p rest ih =>
      obtain ⟨key, s⟩ := p
      rw [keysOf, List.map_cons, List.nodup_cons] at h
      by_cases hk : key = id
      · subst hk
        simpa [bumpScore, keysOf, List.nodup_cons] using h
      · rw [bumpScore, if_neg hk, keysOf, List.map_cons, List.nodup_cons]
        refine ⟨fun hmem => ?_, ih h.2⟩
        rcases (mem_keysOf_bumpScore rest id key v).mp hmem with hmem | hmem
        · exact h.1 hmem
        · exact hk hmem

theorem scoreOf_addRanking (ranked : List Str) (k rank : ℕ)
    (scores : List (Str × ℚ)) (j : Str) :
    scoreOf (addRanking k scores ranked rank) j =
      scoreOf scores j + listScore k j ranked rank := by
  induction ranked generalizing scores rank with
  | nil => simp [addRanking, listScore]
  | cons id rest ih =>
      rw [addRanking, ih, scoreOf_bumpScore, listScore]
      ring

theorem mem_keysOf_addRanking (ranked : List Str) (k rank : ℕ)
    (scores : List (Str × ℚ)) (j : Str) :
    j ∈ keysOf (addRanking k scores ranked rank) ↔ j ∈ keysOf scores ∨ j ∈ ranked := by
  induction ranked generalizing scores rank with
  | nil => simp [addRanking]
  | cons id rest ih =>
      rw [addRanking, ih]
      rw [mem_keysOf_bumpScore]
      simp
      tauto

theorem nodup_keysOf_addRanking (ranked : List Str) (k rank : ℕ)
    (scores : List (Str × ℚ)) (h : (keysOf scores).Nodup) :
    (keysOf (addRanking k scores ranked rank)).Nodup := by
  induction ranked generalizing scores rank with
  | nil => simpa [addRanking] using h
  | cons id rest ih => exact ih _ _ (nodup_keysOf_bumpScore _ _ _ h)

theorem scoreOf_foldRankings (rankings : List (List Str)) (k : ℕ)
    (scores : List (Str × ℚ)) (j : Str) :
    scoreOf (rankings.foldl (fun s ranked => addRanking k s ranked 1) scores) j =
      scoreOf scores j + specScore rankings k j := by
  induction rankings generalizing scores with
  | nil => simp [specScore]
  | cons ranked rest ih =>
      rw [List.foldl_cons, ih, scoreOf_addRanking]
      simp only [specScore, List.map_cons, List.sum_cons]
      ring

theorem mem_keysOf_foldRankings (rankings : List (List Str)) (k : ℕ)
    (scores : List (Str × ℚ)) (j : Str) :
    j ∈ keysOf (rankings.foldl (fun s ranked => addRanking k s ranked 1) scores) ↔
      j ∈ keysOf scores ∨ ∃ l ∈ rankings, j ∈ l := by
  induction rankings generalizing scores with
  | nil => simp
  | cons ranked rest ih =>
      rw [List.foldl_cons, ih, mem_keysOf_addRanking]
      simp
      tauto

theorem nodup_keysOf_foldRankings (rankings : List (List Str)) (k : ℕ)
    (scores : List (Str × ℚ)) (h : (keysOf scores).Nodup) :
    (keysOf (rankings.foldl (fun s ranked => addRanking k s ranked 1) scores)).Nodup := by
  induction rankings generalizing scores with
  | nil => exact h
  | cons ranked rest ih => exact ih _ (nodup_keysOf_addRanking _ _ _ _ h)

theorem insertDesc_perm (p : Str × ℚ) (l : List (Str × ℚ)) :
    (insertDesc p l).Perm (p :: l) := by
  induction l with
  | nil => simp [insertDesc]
  | cons q rest ih =>
      rw [insertDesc]
      split
      · exact (ih.cons q).trans (List.Perm.swap p q rest)
      · exact List.Perm.refl _

theorem sortByScoreDesc_perm (l : List (Str × ℚ)) : (sortByScoreDesc l).Perm l := by
  induction l with
  | nil => exact List.Perm.refl _
  | cons p rest ih => exact (insertDesc_perm p _).trans (ih.cons p)

theorem pairwise_insertDesc (p : Str × ℚ) (l : List (Str × ℚ))
    (h : l.Pairwise (fun a b => b.2 ≤ a.2)) :
    (insertDesc p l).Pairwise (fun a b => b.2 ≤ a.2) := by
  induction l with
  | nil => simp [insertDesc]
  | cons q rest ih =>
      rw [List.pairwise_cons] at h
      rw [insertDesc]
      split
      · rename_i hlt
        rw [List.pairwise_cons]
        refine ⟨fun r hr => ?_, ih h.2⟩
        rcases List.mem_cons.mp ((insertDesc_perm p rest).mem_iff.mp hr) with hr | hr
        · exact hr ▸ le_of_lt hlt
        · exact h.1 r hr
      · rename_i hge
        rw [List.pairwise_cons]
        push_neg at hge
        exact ⟨fun r hr => by
          rcases List.mem_cons.mp hr with hr | hr
          · exact hr ▸ hge
          · exact le_trans (h.1 r hr) hge, List.pairwise_cons.mpr h⟩

theorem pairwise_sortByScoreDesc (l : List (Str × ℚ)) :
    (sortByScoreDesc l).Pairwise (fun a b => b.2 ≤ a.2) := by
  induction l with
  | nil => simp [sortByScoreDesc]
  | cons p rest ih => exact pairwise_insertDesc p _ ih

theorem scoreOf_eq_of_mem (scores : List (Str × ℚ)) (id : Str) (s : ℚ)
    (hnd : (keysOf scores).Nodup) (hmem : (id, s) ∈ scores) : scoreOf scores id = s := by
  induction scores with
  | nil => cases hmem
  | cons p rest ih =>
      obtain ⟨key, t⟩ := p
      rw [keysOf, List.map_cons, List.nodup_cons] at hnd
      rcases List.mem_cons.mp hmem with h | h
      · obtain ⟨h1, h2⟩ := Prod.mk.injEq .. ▸ h
        simp [scoreOf, h1.symm, h2]
      · have hkey : ¬ key = id := by
          intro hk
          exact hnd.1 (hk ▸ (mem_keysOf_iff rest id).mpr ⟨s, h⟩)
        rw [scoreOf, if_neg hkey]
        exact ih hnd.2 h

theorem mem_foldl_markCancelled_of_failed (q : List Str) (jobs : List (Str × BgJob))
    (id : Str) (e : Option Str) (hmem : (id, ⟨.failed, e⟩) ∈ jobs) :
    (id, ⟨.failed, e⟩) ∈ q.foldl markCancelled jobs := by
  induction q generalizing jobs with
  | nil => exact hmem
  | cons h rest ih =>
      refine ih _ ?_
      rw [markCancelled]
      have : (if (id, (⟨.failed, e⟩ : BgJob)).1 = h ∧ (id, (⟨.failed, e⟩ : BgJob)).2.status = .queued
          then ((id, (⟨.failed, e⟩ : BgJob)).1, (⟨.failed, some (str "cancelled: server shutdown")⟩ : BgJob))
          else (id, ⟨.failed, e⟩)) = (id, ⟨.failed, e⟩) := by
        simp
      exact this ▸ List.mem_map_of_mem _ hmem

theorem mem_foldl_markCancelled (q : List Str) (jobs : List (Str × BgJob))
    (id : Str) (j : BgJob) (hq : id ∈ q) (hmem : (id, j) ∈ jobs)
    (hst : j.status = .queued) :
    (id, ⟨.failed, some (str "cancelled: server shutdown")⟩) ∈ q.foldl markCancelled jobs := by
  induction q generalizing jobs with
  | nil => cases hq
  | cons h rest ih =>
      rw [List.foldl_cons]
      by_cases hh : id = h
      · subst hh
        refine mem_foldl_markCancelled_of_failed rest _ id _ ?_
        rw [markCancelled]
        have : (if (id, j).1 = id ∧ (id, j).2.status = .queued
            then ((id, j).1, (⟨.failed, some (str "cancelled: server shutdown")⟩ : BgJob))
            else (id, j)) = (id, ⟨.failed, some (str "cancelled: server shutdown")⟩) := by
          simp [hst]
        exact this ▸ List.mem_map_of_mem _ hmem
      · rcases List.mem_cons.mp hq with hq1 | hq1
        · exact absurd hq1 hh
        · refine ih _ hq1 ?_
          rw [markCancelled]
          have : (if (id, j).1 = h ∧ (id, j).2.status = .queued
              then ((id, j).1, (⟨.failed, some (str "cancelled: server shutdown")⟩ : BgJob))
              else (id, j)) = (id, j) := by
            simp [hh]
          exact this ▸ List.mem_map_of_mem _ hmem

theorem map_fst_markCancelled (jobs : List (Str × BgJob)) (id : Str) :
    (markCancelled jobs id).map Prod.fst = jobs.map Prod.fst := by
  rw [markCancelled, List.map_map]
  refine List.map_congr_left fun p _ => ?_
  by_cases h : p.1 = id ∧ p.2.status = .queued <;> simp [h]

theorem map_fst_foldl_markCancelled (q : List Str) (jobs : List (Str × BgJob)) :
    (q.foldl markCancelled jobs).map Prod.fst = jobs.map Prod.fst := by
  induction q generalizing jobs with
  | nil => rfl
  | cons h rest ih => rw [List.foldl_cons, ih, map_fst_markCancelled]

theorem retryLoop_ok {A : Type} (maxRetries : ℕ) (run : ℕ → Except PyExc A)
    (shutdownWait : ℕ → Bool) (attempt : ℕ) (r : A) (h : run attempt = .ok r) :
    retryLoop maxRetries run shutdownWait attempt =
      ⟨.completed, some r, none, attempt, attempt + 1⟩ := by
  rw [retryLoop, h]

theorem retryLoop_retry {A : Type} (maxRetries : ℕ) (run : ℕ → Except PyExc A)
    (shutdownWait : ℕ → Bool) (attempt : ℕ) (e : PyExc) (h : run attempt = .error e)
    (ht : is_transient e = true) (hlt : attempt < maxRetries)
    (hsw : shutdownWait (attempt + 1) = false) :
    retryLoop maxRetries run shutdownWait attempt =
      retryLoop maxRetries run shutdownWait (attempt + 1) := by
  rw [retryLoop, h]
  simp [ht, hlt, hsw]

theorem retryLoop_fail {A : Type} (maxRetries : ℕ) (run : ℕ → Except PyExc A)
    (shutdownWait : ℕ → Bool) (attempt : ℕ) (e : PyExc) (h : run attempt = .error e)
    (hnt : ¬ (is_transient e = true ∧ attempt < maxRetries)) :
    retryLoop maxRetries run shutdownWait attempt =
      ⟨.failed, none, some e.message, attempt, attempt + 1⟩ := by
  rw [retryLoop, h]
  simp only [dif_neg hnt]

theorem tokenRuns_eq_nil (p : Char → Bool) (s : Str) (h : ∀ c ∈ s, p c = false) :
    tokenRuns p s [] = [] := by
  induction s with
  | nil => rfl
  | cons c rest ih =>
      rw [tokenRuns, if_neg (by simp [h c (List.mem_cons_self c rest)]), if_pos rfl]
      exact ih fun d hd => h d (List.mem_cons_of_mem c hd)

theorem sha256_test_vector_empty : sha256 (strBytes (str "")) = [227, 176, 196, 66, 152, 252, 28, 20, 154, 251, 244, 200, 153, 111, 185, 36, 39, 174, 65, 228, 100, 155, 147, 76, 164, 149, 153, 27, 120, 82, 184, 85] := by decide

theorem sha256_test_vector_abc : sha256 (strBytes (str "abc")) = [186, 120, 22, 191, 143, 1, 207, 234, 65, 65, 64, 222, 93, 174, 34, 35, 176, 3, 97, 163, 150, 23, 122, 156, 180, 16, 255, 97, 242, 0, 21, 173] := by decide

theorem length_hashAccum (sha : Str → List ℕ) (text : Str) (dim : ℕ) :
    (hashAccum sha text dim).length = dim := by
  rw [hashAccum]
  generalize hashTokens text = toks
  have : ∀ (toks : List Str) (v : List ℚ), v.length = dim →
      (toks.foldl (fun v tok =>
        let digest := sha tok
        let i := tokenIndex dim digest
        v.set i (v.getD i 0 + signedWeight digest)) v).length = dim := by
    intro toks
    induction toks with
    | nil => exact fun v hv => hv
    | cons t rest ih =>
        intro v hv
        rw [List.foldl_cons]
        exact ih _ (by simpa using hv)
  exact this toks _ (List.length_replicate dim 0)

theorem sumSq_nonneg (v : List ℚ) : 0 ≤ sumSq v := by
  induction v with
  | nil => simp [sumSq]
  | cons x rest ih =>
      rw [sumSq, List.map_cons, List.sum_cons]
      have := mul_self_nonneg x
      rw [sumSq] at ih
      nlinarith

theorem sum_div_sq (v : List ℚ) (c : ℝ) :
    (v.map fun x : ℚ => ((x : ℝ) / c) ^ 2).sum = (sumSq v : ℝ) / c ^ 2 := by
  induction v with
  | nil => simp [sumSq]
  | cons x rest ih =>
      rw [List.map_cons, List.sum_cons, ih]
      have hcast : (sumSq (x :: rest) : ℝ) = (x : ℝ) ^ 2 + (sumSq rest : ℝ) := by
        rw [sumSq, List.map_cons, List.sum_cons, ← sumSq]
        push_cast
        ring
      rw [hcast, div_pow, div_add_div_same]

theorem head_not_space_dropWhile (s : Str) :
    ∀ c, (s.dropWhile isPySpace).head? = some c → isPySpace c = false := by
  induction s with
  | nil => intro c h; cases h
  | cons d rest ih =>
      intro c h
      rw [List.dropWhile_cons] at h
      by_cases hd : isPySpace d
      · rw [if_pos hd] at h
        exact ih c h
      · rw [if_neg hd] at h
        cases h
        simpa using hd

theorem dropWhile_eq_self_of_head (s : Str)
    (h : ∀ c, s.head? = some c → isPySpace c = false) :
    s.dropWhile isPySpace = s := by
  cases s with
  | nil => rfl
  | cons d rest =>
      rw [List.dropWhile_cons, if_neg]
      simp [h d rfl]

theorem stripStr_eq_self (s : Str) (h : IsStripped s) : stripStr s = s := by
  rw [stripStr, dropWhile_eq_self_of_head s h.1, dropWhile_eq_self_of_head s.reverse h.2,
    List.reverse_reverse]

theorem isStripped_stripStr (s : Str) : IsStripped (stripStr s) := by
  constructor
  · intro c h
    rw [stripStr] at h
    set u := (s.dropWhile isPySpace).reverse.dropWhile isPySpace with hu
    have hpre : u.reverse <+: s.dropWhile isPySpace := by
      rw [← List.reverse_reverse (s.dropWhile isPySpace)]
      exact List.reverse_prefix.mpr (List.dropWhile_suffix isPySpace)
    obtain ⟨r, hr⟩ := hpre
    rcases hv : u.reverse with _ | ⟨c0, t⟩
    · rw [hv] at h; cases h
    · rw [hv] at h hr
      cases h
      exact head_not_space_dropWhile s c (by rw [← hr]; rfl)
  · intro c h
    rw [stripStr, List.reverse_reverse] at h
    exact head_not_space_dropWhile (s.dropWhile isPySpace).reverse c h

theorem isStripped_nil : IsStripped [] :=
  ⟨fun _ h => (nomatch h), fun _ h => nomatch h⟩

theorem head?_append_of_ne_nil (a b : Str) (ha : a ≠ []) :
    (a ++ b).head? = a.head? := by
  cases a with
  | nil => exact absurd rfl ha
  | cons c t => rfl

theorem joinSep_one (sep p : Str) : joinSep sep [p] = p := rfl

theorem joinSep_cons2 (sep p q : Str) (rest : List Str) :
    joinSep sep (p :: q :: rest) = p ++ sep ++ joinSep sep (q :: rest) := rfl

theorem joinNN_ne_nil (ps : List Str) (hne : ps ≠ []) (hp : ∀ p ∈ ps, p ≠ []) :
    joinNN ps ≠ [] := by
  cases ps with
  | nil => exact absurd rfl hne
  | cons p rest =>
      cases rest with
      | nil => simpa [joinNN, joinSep_one] using hp p (by simp)
      | cons q rest2 =>
          rw [joinNN, joinSep_cons2]
          intro hcontra
          rcases List.append_eq_nil.mp hcontra with ⟨h1, _⟩
          rcases List.append_eq_nil.mp h1 with ⟨hps, _⟩
          exact hp p (by simp) hps

theorem isStripped_joinNN (ps : List Str) (hp : ∀ p ∈ ps, p ≠ [] ∧ IsStripped p) :
    IsStripped (joinNN ps) := by
  induction ps with
  | nil => exact isStripped_nil
  | cons p rest ih =>
      cases rest with
      | nil => simpa [joinNN, joinSep_one] using (hp p (by simp)).2
      | cons q rest2 =>
          have hp1 := hp p (by simp)
          have hrest : ∀ x ∈ q :: rest2, x ≠ [] ∧ IsStripped x :=
            fun x hx => hp x (List.mem_cons_of_mem p hx)
          have ihr : IsStripped (joinSep (str "\n\n") (q :: rest2)) := ih hrest
          have hjoin_ne : joinSep (str "\n\n") (q :: rest2) ≠ [] :=
            joinNN_ne_nil _ (by simp) (fun x hx => (hrest x hx).1)
          constructor
          · intro c h
            rw [joinNN, joinSep_cons2, List.append_assoc,
              head?_append_of_ne_nil p _ hp1.1] at h
            exact hp1.2.1 c h
          · intro c h
            rw [joinNN, joinSep_cons2, List.reverse_append,
              head?_append_of_ne_nil _ _ (by simpa using hjoin_ne)] at h
            exact ihr.2 c h
  
theorem joinNN_append_singleton (ps : List Str) (p : Str) (hne : ps ≠ []) :
    joinNN (ps ++ [p]) = joinNN ps ++ str "\n\n" ++ p := by
  induction ps with
  | nil => exact absurd rfl hne
  | cons x rest ih =>
      cases rest with
      | nil => rfl
      | cons y rest2 =>
          have ih2 := ih (by simp)
          rw [show ((x :: y :: rest2) ++ [p] : List Str) = x :: y :: (rest2 ++ [p]) from rfl,
            joinNN, joinSep_cons2,
            show joinSep (str "\n\n") (y :: (rest2 ++ [p])) = joinNN ((y :: rest2) ++ [p])
              from rfl,
            ih2]
          simp [joinNN, joinSep_cons2, List.append_assoc]

theorem stripStr_idem (s : Str) : stripStr (stripStr s) = stripStr s :=
  stripStr_eq_self _ (isStripped_stripStr s)

theorem emitSection_spec (path : Str) (maxC minC : ℕ) (hp : Str) (parts0 : List Str)
    (hparts0 : ∀ p ∈ parts0, p ≠ [] ∧ IsStripped p) :
    ∀ (rest : List Str) (current : Str) (idx : ℕ),
      (∀ p ∈ rest, p ∈ parts0) →
      (current = [] ∨ ∃ ps, ps ≠ [] ∧ (∀ p ∈ ps, p ∈ parts0) ∧ current = joinNN ps) →
      ∀ c ∈ (emitSection path maxC minC hp rest current idx).1,
        minC ≤ c.content.length ∧ c.heading_path = hp ∧
          ∃ ps, (∀ p ∈ ps, p ∈ parts0) ∧ c.content = joinNN ps := by
  have hstrip : ∀ current : Str,
      (current = [] ∨ ∃ ps, ps ≠ [] ∧ (∀ p ∈ ps, p ∈ parts0) ∧ current = joinNN ps) →
      stripStr current = current ∧
        ∃ ps, (∀ p ∈ ps, p ∈ parts0) ∧ current = joinNN ps := by
    intro current hcur
    rcases hcur with rfl | ⟨ps, hne, hmem, rfl⟩
    · exact ⟨rfl, [], by simp, rfl⟩
    · refine ⟨stripStr_eq_self _ ?_, ps, hmem, rfl⟩
      exact isStripped_joinNN ps fun p hploc => hparts0 p (hmem p hploc)
  intro rest
  induction rest with
  | nil =>
      intro current idx hrest hcur c hc
      rw [emitSection] at hc
      obtain ⟨hs, ps, hmem, hjoin⟩ := hstrip current hcur
      split at hc
      · rename_i hcond
        rcases List.mem_singleton.mp hc with rfl
        exact ⟨hcond, rfl, ps, hmem, by rw [hs, hjoin]⟩
      · cases hc
  | cons part rest ih =>
      intro current idx hrest hcur c hc
      have hpart : part ∈ parts0 := hrest part (by simp)
      have hrest2 : ∀ p ∈ rest, p ∈ parts0 := fun p hploc =>
        hrest p (List.mem_cons_of_mem part hploc)
      have hsingle : (part = [] ∨ ∃ ps, ps ≠ [] ∧ (∀ p ∈ ps, p ∈ parts0) ∧
          part = joinNN ps) :=
        Or.inr ⟨[part], by simp, by simpa using hpart, (joinSep_one _ part).symm⟩
      obtain ⟨hs, ps, hmem, hjoin⟩ := hstrip current hcur
      rw [emitSection] at hc
      simp only at hc
      by_cases hce : current = []
      · rw [if_pos hce] at hc
        split at hc
        · exact ih part idx hrest2 hsingle c hc
        · split at hc
          · rename_i hover hmin2
            rcases List.mem_cons.mp hc with rfl | hc2
            · subst hce
              refine ⟨?_, rfl, [], by simp, rfl⟩
              simpa [stripStr] using hmin2
            · exact ih part (idx + 1) hrest2 hsingle c hc2
          · exact ih part idx hrest2 hsingle c hc
      · rw [if_neg hce] at hc
        split at hc
        · -- the proposal fits: recurse with the grown buffer
          refine ih _ idx hrest2 ?_ c hc
          rcases hcur with rfl | ⟨ps1, hne1, hmem1, rfl⟩
          · exact absurd rfl hce
          · refine Or.inr ⟨ps1 ++ [part], by simp, ?_, ?_⟩
            · intro p hploc
              rcases List.mem_append.mp hploc with h | h
              · exact hmem1 p h
              · rcases List.mem_singleton.mp h with rfl
                exact hpart
            · rw [joinNN_append_singleton ps1 part hne1]
        · split at hc
          · rename_i hover hmin2
            rcases List.mem_cons.mp hc with rfl | hc2
            · refine ⟨by rw [hs]; exact hmin2, rfl, ps, hmem, by rw [hs, hjoin]⟩
            · exact ih part (idx + 1) hrest2 hsingle c hc2
          · exact ih part idx hrest2 hsingle c hc

theorem chunkSections_spec (path : Str) (maxC minC : ℕ) (sections : List (Str × List Str))
    (hsec : ∀ sec ∈ sections, ∀ p ∈ sec.2, p ≠ [] ∧ IsStripped p) :
    ∀ idx, ∀ c ∈ chunkSections path maxC minC sections idx,
      minC ≤ c.content.length ∧
        ∃ hp parts, (hp, parts) ∈ sections ∧ c.heading_path = hp ∧
          ∃ ps, (∀ p ∈ ps, p ∈ parts) ∧ c.content = joinNN ps := by
  induction sections with
  | nil =>
      intro idx c hc
      cases hc
  | cons sec rest ih =>
      obtain ⟨heading, parts⟩ := sec
      have hsec1 : ∀ p ∈ parts, p ≠ [] ∧ IsStripped p :=
        fun p hploc => hsec (heading, parts) (by simp) p hploc
      have hrest : ∀ sec ∈ rest, ∀ p ∈ sec.2, p ≠ [] ∧ IsStripped p :=
        fun sec hsl => hsec sec (List.mem_cons_of_mem _ hsl)
      intro idx c hc
      rw [chunkSections] at hc
      split at hc
      · obtain ⟨h1, hp0, parts0, hmem0, h2⟩ := ih hrest idx c hc
        exact ⟨h1, hp0, parts0, List.mem_cons_of_mem _ hmem0, h2⟩
      · rcases List.mem_append.mp hc with hc1 | hc1
        · obtain ⟨h1, h2, ps, hmem, h3⟩ :=
            emitSection_spec path maxC minC heading parts hsec1 parts [] idx
              (fun p hploc => hploc) (Or.inl rfl) c hc1
          exact ⟨h1, heading, parts, by simp, h2, ps, hmem, h3⟩
        · obtain ⟨h1, hp0, parts0, hmem0, h2⟩ :=
            ih hrest (emitSection path maxC minC heading parts [] idx).2 c hc1
          exact ⟨h1, hp0, parts0, List.mem_cons_of_mem _ hmem0, h2⟩

theorem appendToLast_one (s0 : Str × List Str) (part : Str) :
    appendToLast [s0] part = [(s0.1, s0.2 ++ [part])] := rfl

theorem appendToLast_cons2 (s0 s1 : Str × List Str) (rest : List (Str × List Str))
    (part : Str) :
    appendToLast (s0 :: s1 :: rest) part = s0 :: appendToLast (s1 :: rest) part := rfl

theorem parts_appendToLast (sections : List (Str × List Str)) (part : Str) :
    ∀ sec ∈ appendToLast sections part, ∀ p ∈ sec.2,
      (∃ sec2 ∈ sections, p ∈ sec2.2) ∨ p = part := by
  induction sections with
  | nil =>
      intro sec hs
      cases hs
  | cons s0 rest ih =>
      intro sec hs p hploc
      cases rest with
      | nil =>
          rw [appendToLast_one] at hs
          rcases List.mem_singleton.mp hs with rfl
          rcases List.mem_append.mp hploc with h | h
          · exact Or.inl ⟨s0, by simp, h⟩
          · exact Or.inr (List.mem_singleton.mp h)
      | cons s1 rest2 =>
          rw [appendToLast_cons2] at hs
          rcases List.mem_cons.mp hs with rfl | hs2
          · exact Or.inl ⟨sec, by simp, hploc⟩
          · rcases ih sec hs2 p hploc with ⟨sec2, hmem2, hp2⟩ | h
            · exact Or.inl ⟨sec2, List.mem_cons_of_mem _ hmem2, hp2⟩
            · exact Or.inr h

theorem buildSections_parts (P : Str → Prop) :
    ∀ (ast : List MdNode) (stack : List (ℕ × Str)) (sections : List (Str × List Str)),
      (∀ sec ∈ sections, ∀ p ∈ sec.2, P p) →
      (∀ info raw, MdNode.blockCode info raw ∈ ast → P (fenceStr info raw)) →
      (∀ t, MdNode.other t ∈ ast → stripStr t ≠ [] → P (stripStr t)) →
      ∀ sec ∈ buildSections ast stack sections, ∀ p ∈ sec.2, P p := by
  intro ast
  induction ast with
  | nil =>
      intro stack sections hpre _ _ sec hs p hploc
      exact hpre sec (by rwa [buildSections] at hs) p hploc
  | cons node rest ih =>
      intro stack sections hpre hfence hother sec hs p hploc
      have hfence2 : ∀ info raw, MdNode.blockCode info raw ∈ rest → P (fenceStr info raw) :=
        fun info raw hm => hfence info raw (List.mem_cons_of_mem _ hm)
      have hother2 : ∀ t, MdNode.other t ∈ rest → stripStr t ≠ [] → P (stripStr t) :=
        fun t hm => hother t (List.mem_cons_of_mem _ hm)
      cases node with
      | heading level text =>
          rw [buildSections] at hs
          refine ih _ _ ?_ hfence2 hother2 sec hs p hploc
          intro sec2 hs2 p2 hp2
          rcases List.mem_append.mp hs2 with h | h
          · exact hpre sec2 h p2 hp2
          · rcases List.mem_singleton.mp h with rfl
            cases hp2
      | blockCode info raw =>
          rw [buildSections] at hs
          refine ih _ _ ?_ hfence2 hother2 sec hs p hploc
          intro sec2 hs2 p2 hp2
          rcases parts_appendToLast sections (fenceStr info raw) sec2 hs2 p2 hp2 with
            ⟨sec3, hmem3, hp3⟩ | rfl
          · exact hpre sec3 hmem3 p2 hp3
          · exact hfence info raw (by simp)
      | other text =>
          rw [buildSections] at hs
          split at hs
          · exact ih _ _ hpre hfence2 hother2 sec hs p hploc
          · rename_i hne
            refine ih _ _ ?_ hfence2 hother2 sec hs p hploc
            intro sec2 hs2 p2 hp2
            rcases parts_appendToLast sections (stripStr text) sec2 hs2 p2 hp2 with
              ⟨sec3, hmem3, hp3⟩ | rfl
            · exact hpre sec3 hmem3 p2 hp3
            · exact hother text (by simp) hne

theorem isStripped_fenceBase (info raw : Str) :
    IsStripped (str "```" ++ info ++ str "\n" ++ raw ++ str "\n```") := by
  constructor
  · intro c h
    rw [head?_append_of_ne_nil _ _ (by simp [str]),
      head?_append_of_ne_nil _ _ (by simp [str]),
      head?_append_of_ne_nil _ _ (by simp [str]),
      head?_append_of_ne_nil _ _ (by simp [str])] at h
    simp [str] at h
    simp [← h, isPySpace]
  · intro c h
    rw [List.reverse_append, head?_append_of_ne_nil _ _ (by simp [str])] at h
    simp [str] at h
    simp [← h, isPySpace]

theorem fenceStr_eq (info raw : Str) :
    fenceStr info raw = str "```" ++ info ++ str "\n" ++ raw ++ str "\n```" :=
  stripStr_eq_self _ (isStripped_fenceBase info raw)

theorem fenceStr_ne_nil (info raw : Str) : fenceStr info raw ≠ [] := by
  rw [fenceStr_eq]
  simp [str]

theorem sections_parts (ast : List MdNode) :
    ∀ sec ∈ sectionsOf ast, ∀ p ∈ sec.2,
      (p ≠ [] ∧ IsStripped p) ∧
        ((∃ info raw, MdNode.blockCode info raw ∈ ast ∧ p = fenceStr info raw)
          ∨ (∃ t, MdNode.other t ∈ ast ∧ p = stripStr t)) := by
  refine buildSections_parts _ ast [] _ ?_ ?_ ?_
  · intro sec hs p hp
    rcases List.mem_singleton.mp hs with rfl
    cases hp
  · intro info raw hm
    exact ⟨⟨fenceStr_ne_nil info raw, isStripped_stripStr _⟩, Or.inl ⟨info, raw, hm, rfl⟩⟩
  · intro t hm hne
    exact ⟨⟨hne, isStripped_stripStr t⟩, Or.inr ⟨t, hm, rfl⟩⟩

theorem chunkSections_single_oversized (path : Str) (maxC minC : ℕ) (hp p : Str)
    (h1 : 1 ≤ minC) (hsp : stripStr p = p) (h2 : minC ≤ p.length) (h3 : maxC < p.length) :
    chunkSections path maxC minC [(hp, [p])] 0 =
      [⟨make_chunk_id path 0, 0, hp, p, tokenCount p⟩] := by
  have hc1 : ¬ p.length ≤ maxC := by omega
  have hc2 : ¬ minC ≤ ([] : Str).length := by simpa using (by omega : ¬ minC ≤ 0)
  have hc3 : minC ≤ (stripStr p).length := by rw [hsp]; exact h2
  simp [chunkSections, emitSection, hc1, hc2, hc3, hsp]
  rw [if_neg (by omega : ¬ minC = 0), if_pos h2]

theorem reindexLoop_fastpath (maxC minC : ℕ) (model : Str) (embed : Str → List ℚ)
    (inc exc : List Str) (metaMap : Str → Option FileRow) (candidates : List FsFile) :
    ∀ (s : DbState) (r : ReindexResult),
      (∀ f ∈ candidates, is_included inc f.rel = true → is_excluded exc f.rel = false →
        ∃ m, metaMap f.rel = some m ∧ m.mtime_ns = f.mtime_ns ∧
          m.size_bytes = f.size_bytes) →
      reindexLoop maxC minC model embed inc exc false metaMap candidates s r =
        .ok (s, ⟨r.indexed_files,
          r.skipped_files + (candidates.filter fun f =>
            is_included inc f.rel && !is_excluded exc f.rel).length,
          r.seen_paths ++ ((candidates.filter fun f =>
            is_included inc f.rel && !is_excluded exc f.rel).map FsFile.rel),
          r.reads⟩) := by
  induction candidates with
  | nil =>
      intro s r _
      rw [reindexLoop]
      simp
  | cons f rest ih =>
      intro s r h
      have hrest : ∀ g ∈ rest, is_included inc g.rel = true →
          is_excluded exc g.rel = false → ∃ m, metaMap g.rel = some m ∧
            m.mtime_ns = g.mtime_ns ∧ m.size_bytes = g.size_bytes :=
        fun g hg => h g (List.mem_cons_of_mem f hg)
      rw [reindexLoop]
      by_cases hskip : is_included inc f.rel = false ∨ is_excluded exc f.rel = true
      · rw [if_pos hskip]
        rw [ih s r hrest]
        have hfcond : (is_included inc f.rel && !is_excluded exc f.rel) = false := by
          rcases hskip with h1 | h1 <;> simp [h1]
        rw [List.filter_cons, if_neg (by simp [hfcond])]
      · rw [if_neg hskip]
        push_neg at hskip
        have hincl : is_included inc f.rel = true := by simpa using hskip.1
        have hexcl : is_excluded exc f.rel = false := by simpa using hskip.2
        obtain ⟨m, hm, hmt, hsz⟩ := h f (by simp) hincl hexcl
        rw [hm]
        simp only
        rw [if_pos ⟨by simp, hmt, hsz⟩]
        rw [ih s _ hrest]
        have hfcond : (is_included inc f.rel && !is_excluded exc f.rel) = true := by
          simp [hincl, hexcl]
        rw [List.filter_cons, if_pos (by simp [hfcond]), List.map_cons, List.length_cons,
          List.append_assoc, List.singleton_append]
        have harith : r.skipped_files + 1 +
            (List.filter (fun g => is_included inc g.rel && !is_excluded exc g.rel)
              rest).length
            = r.skipped_files +
              ((List.filter (fun g => is_included inc g.rel && !is_excluded exc g.rel)
                rest).length + 1) := by omega
        rw [harith]

theorem emitSection_idx (path : Str) (maxC minC : ℕ) (hp : Str) :
    ∀ (parts : List Str) (current : Str) (idx : ℕ),
      ((emitSection path maxC minC hp parts current idx).1).map MChunk.chunk_index =
        List.range' idx ((emitSection path maxC minC hp parts current idx).1).length
      ∧ (emitSection path maxC minC hp parts current idx).2 =
        idx + ((emitSection path maxC minC hp parts current idx).1).length := by
  intro parts
  induction parts with
  | nil =>
      intro current idx
      rw [emitSection]
      split
      · exact ⟨rfl, rfl⟩
      · exact ⟨rfl, rfl⟩
  | cons part rest ih =>
      intro current idx
      rw [emitSection]
      simp only
      by_cases hce : current = []
      · rw [if_pos hce]
        split
        · exact ih part idx
        · split
          · obtain ⟨h1, h2⟩ := ih part (idx + 1)
            constructor
            · show MChunk.chunk_index _ ::
                List.map MChunk.chunk_index (emitSection path maxC minC hp rest part (idx + 1)).1 =
                List.range' idx ((emitSection path maxC minC hp rest part (idx + 1)).1.length + 1)
              rw [List.range'_succ, h1]
            · show (emitSection path maxC minC hp rest part (idx + 1)).2 =
                idx + ((emitSection path maxC minC hp rest part (idx + 1)).1.length + 1)
              rw [h2]
              omega
          · exact ih part idx
      · rw [if_neg hce]
        split
        · exact ih _ idx
        · split
          · obtain ⟨h1, h2⟩ := ih part (idx + 1)
            constructor
            · show MChunk.chunk_index _ ::
                List.map MChunk.chunk_index (emitSection path maxC minC hp rest part (idx + 1)).1 =
                List.range' idx ((emitSection path maxC minC hp rest part (idx + 1)).1.length + 1)
              rw [List.range'_succ, h1]
            · show (emitSection path maxC minC hp rest part (idx + 1)).2 =
                idx + ((emitSection path maxC minC hp rest part (idx + 1)).1.length + 1)
              rw [h2]
              omega
          · exact ih part idx

theorem chunkSections_idx (path : Str) (maxC minC : ℕ) :
    ∀ (sections : List (Str × List Str)) (idx : ℕ),
      (chunkSections path maxC minC sections idx).map MChunk.chunk_index =
        List.range' idx (chunkSections path maxC minC sections idx).length := by
  intro sections
  induction sections with
  | nil =>
      intro idx
      rw [chunkSections]
      rfl
  | cons sec rest ih =>
      obtain ⟨heading, parts⟩ := sec
      intro idx
      rw [chunkSections]
      split
      · exact ih idx
      · obtain ⟨h1, h2⟩ := emitSection_idx path maxC minC heading parts [] idx
        rw [List.map_append, List.length_append, h1, ih _, h2]
        rw [show idx + (emitSection path maxC minC heading parts [] idx).1.length =
          idx + 1 * (emitSection path maxC minC heading parts [] idx).1.length from by omega]
        rw [List.range'_append]
        rw [Nat.add_comm ((emitSection path maxC minC heading parts [] idx).1.length)]

theorem chunk_markdown_idx (ast : List MdNode) (path : Str) (maxC minC : ℕ) :
    (chunk_markdown ast path maxC minC).map MChunk.chunk_index =
      List.range ((chunk_markdown ast path maxC minC).length) := by
  rw [chunk_markdown, List.range_eq_range']
  exact chunkSections_idx path maxC minC (sectionsOf ast) 0

theorem nodup_map_inj {α β : Type} [DecidableEq β] (f : α → β) (l : List α)
    (h : (l.map f).Nodup) (a b : α) (ha : a ∈ l) (hb : b ∈ l) (hf : f a = f b) :
    a = b := by
  induction l with
  | nil => cases ha
  | cons x rest ih =>
      rw [List.map_cons, List.nodup_cons] at h
      rcases List.mem_cons.mp ha with rfl | ha2
      · rcases List.mem_cons.mp hb with rfl | hb2
        · rfl
        · exact absurd (hf ▸ List.mem_map_of_mem f hb2) h.1
      · rcases List.mem_cons.mp hb with rfl | hb2
        · exact absurd (hf ▸ List.mem_map_of_mem f ha2) h.1
        · exact ih h.2 ha2 hb2

theorem length_eq_of_nodup_of_mem_iff {α : Type} [DecidableEq α] (l1 l2 : List α)
    (h1 : l1.Nodup) (h2 : l2.Nodup) (h : ∀ a, a ∈ l1 ↔ a ∈ l2) :
    l1.length = l2.length := by
  rw [← List.toFinset_card_of_nodup h1, ← List.toFinset_card_of_nodup h2]
  congr 1
  ext a
  simpa using h a

theorem upsert_file_inv (s : DbState) (p : Str) (mt sz : ℤ) (sha : Str) (hInv : Inv s) :
    Inv (upsert_file s p mt sz sha).1
    ∧ (upsert_file s p mt sz sha).1.chunks = s.chunks
    ∧ (upsert_file s p mt sz sha).1.embeddings = s.embeddings
    ∧ (upsert_file s p mt sz sha).2 ∈ (upsert_file s p mt sz sha).1.files.map FileRow.id := by
  obtain ⟨hid, hpath, hlt, hfk, hcid, hcont, heid, hec, hce⟩ := hInv
  rw [upsert_file]
  rcases hfind : s.files.find? fun f => decide (f.path = p) with _ | f
  · -- no row with this path: INSERT
    have hnotmem : ∀ g ∈ s.files, g.path ≠ p := by
      intro g hg
      have := List.find?_eq_none.mp hfind g hg
      simpa using this
    rw [hfind]
    simp only
    refine ⟨⟨?_, ?_, ?_, ?_, hcid, ?_, heid, hec, hce⟩, trivial, trivial, ?_⟩
    · rw [List.map_append, List.nodup_append]
      refine ⟨hid, by simp, ?_⟩
      intro i hi
      obtain ⟨g, hg, rfl⟩ := List.mem_map.mp hi
      simp only [List.map_cons, List.map_nil, List.mem_singleton]
      intro hcontra
      exact absurd (hlt g hg) (by omega)
    · rw [List.map_append, List.nodup_append]
      refine ⟨hpath, by simp, ?_⟩
      intro q hq
      simp only [List.map_cons, List.map_nil, List.mem_singleton]
      obtain ⟨g, hg, rfl⟩ := List.mem_map.mp hq
      intro hcontra
      exact hnotmem g hg hcontra
    · intro g hg
      rcases List.mem_append.mp hg with h | h
      · exact Nat.lt_succ_of_lt (hlt g h)
      · rcases List.mem_singleton.mp h with rfl
        exact Nat.lt_succ_self _
    · intro c hc
      obtain ⟨g, hg, hcg⟩ := hfk c hc
      exact ⟨g, List.mem_append_left _ hg, hcg⟩
    · intro g hg
      rcases List.mem_append.mp hg with h | h
      · exact hcont g h
      · rcases List.mem_singleton.mp h with rfl
        have hempty : chunkIdxs
            { s with
                files := s.files ++ [(⟨s.nextId, p, mt, sz, sha⟩ : FileRow)]
                nextId := s.nextId + 1 } s.nextId = [] := by
          rw [chunkIdxs]
          have : (s.chunks.filter fun c => decide (c.file_id = s.nextId)) = [] := by
            rw [List.filter_eq_nil_iff]
            intro c hc
            obtain ⟨g, hg, hcg⟩ := hfk c hc
            simp only [decide_eq_true_eq]
            rw [hcg]
            exact Nat.ne_of_lt (hlt g hg)
          rw [this, List.map_nil]
        rw [hempty]
        rfl
    · simp
  · -- existing row: UPDATE keeps id and path
    have hfmem : f ∈ s.files := List.mem_of_find?_eq_some hfind
    rw [hfind]
    simp only
    have hmapid : ((s.files.map fun g =>
        if g.path = p then { g with mtime_ns := mt, size_bytes := sz, sha256hex := sha }
        else g).map FileRow.id) = s.files.map FileRow.id := by
      rw [List.map_map]
      refine List.map_congr_left fun g _ => ?_
      by_cases h : g.path = p <;> simp [h]
    have hmappath : ((s.files.map fun g =>
        if g.path = p then { g with mtime_ns := mt, size_bytes := sz, sha256hex := sha }
        else g).map FileRow.path) = s.files.map FileRow.path := by
      rw [List.map_map]
      refine List.map_congr_left fun g _ => ?_
      by_cases h : g.path = p <;> simp [h]
    refine ⟨⟨by rw [hmapid]; exact hid, by rw [hmappath]; exact hpath, ?_, ?_,
      hcid, ?_, heid, hec, hce⟩, trivial, trivial, ?_⟩
    · intro g hg
      obtain ⟨g0, hg0, rfl⟩ := List.mem_map.mp hg
      by_cases h : g0.path = p <;> simp [h] <;> exact hlt g0 hg0
    · intro c hc
      obtain ⟨g, hg, hcg⟩ := hfk c hc
      refine ⟨if g.path = p then { g with mtime_ns := mt, size_bytes := sz, sha256hex := sha }
        else g, List.mem_map_of_mem _ hg, ?_⟩
      by_cases h : g.path = p <;> simp [h] <;> exact hcg
    · intro g hg
      obtain ⟨g0, hg0, rfl⟩ := List.mem_map.mp hg
      have hidg : (if g0.path = p then
          { g0 with mtime_ns := mt, size_bytes := sz, sha256hex := sha }
        else g0).id = g0.id := by
        by_cases h : g0.path = p <;> simp [h]
      rw [hidg]
      exact hcont g0 hg0
    · rw [hmapid]
      exact List.mem_map_of_mem _ hfmem

theorem delete_chunks_inv (s : DbState) (fid : ℕ) (hInv : Inv s) :
    Inv (delete_chunks_for_file s fid)
    ∧ chunkIdxs (delete_chunks_for_file s fid) fid = []
    ∧ (delete_chunks_for_file s fid).files = s.files
    ∧ (delete_chunks_for_file s fid).nextId = s.nextId := by
  obtain ⟨hid, hpath, hlt, hfk, hcid, hcont, heid, hec, hce⟩ := hInv
  have hkept : (delete_chunks_for_file s fid).chunks =
      s.chunks.filter fun c => !decide (c.file_id = fid) := rfl
  have hchsub : ((delete_chunks_for_file s fid).chunks.map ChunkRow.chunk_id).Sublist
      (s.chunks.map ChunkRow.chunk_id) := (List.filter_sublist _).map _
  have hembsub : ((delete_chunks_for_file s fid).embeddings.map
      EmbeddingRow.chunk_id).Sublist (s.embeddings.map EmbeddingRow.chunk_id) :=
    (List.filter_sublist _).map _
  have hfilterfix : ∀ fid2, fid2 ≠ fid →
      chunkIdxs (delete_chunks_for_file s fid) fid2 = chunkIdxs s fid2 := by
    intro fid2 hne
    rw [chunkIdxs, chunkIdxs, hkept, List.filter_filter]
    congr 1
    refine List.filter_congr fun c _ => ?_
    by_cases h : c.file_id = fid2
    · simp [h, hne]
    · simp [h]
  refine ⟨⟨hid, hpath, hlt, ?_, hchsub.nodup hcid, ?_, hembsub.nodup heid, ?_, ?_⟩,
    ?_, rfl, rfl⟩
  · intro c hc
    exact hfk c (List.mem_of_mem_filter hc)
  · intro f hf
    by_cases h : f.id = fid
    · rw [h]
      have : chunkIdxs (delete_chunks_for_file s fid) fid = [] := by
        rw [chunkIdxs, hkept, List.filter_filter]
        have : (s.chunks.filter fun c =>
            decide (c.file_id = fid) && !decide (c.file_id = fid)) = [] := by
          rw [List.filter_eq_nil_iff]
          intro c _
          by_cases hcf : c.file_id = fid <;> simp [hcf]
        rw [this, List.map_nil]
      rw [this]
      rfl
    · rw [hfilterfix f.id h]
      exact hcont f hf
  · -- every kept embedding's chunk id is a kept chunk's id
    intro e he
    have hemem : e ∈ s.embeddings := List.mem_of_mem_filter he
    have hekeep := List.of_mem_filter he
    obtain ⟨c, hc, hcide⟩ := List.mem_map.mp (hec e hemem)
    rw [List.mem_map]
    refine ⟨c, ?_, hcide⟩
    rw [hkept, List.mem_filter]
    refine ⟨hc, ?_⟩
    by_cases hcf : c.file_id = fid
    · exfalso
      have hdoomed : c.chunk_id ∈ ((s.chunks.filter fun c =>
          decide (c.file_id = fid)).map ChunkRow.chunk_id) := by
        exact List.mem_map_of_mem _ (List.mem_filter.mpr ⟨hc, by simp [hcf]⟩)
      have : (((s.chunks.filter fun c => decide (c.file_id = fid)).map
          ChunkRow.chunk_id).any fun cid => decide (cid = e.chunk_id)) = true := by
        rw [List.any_eq_true]
        exact ⟨c.chunk_id, hdoomed, by simp [hcide]⟩
      rw [this] at hekeep
      simp at hekeep
    · simp [hcf]
  · -- every kept chunk's id is a kept embedding's id
    intro c hc
    have hcmem : c ∈ s.chunks := List.mem_of_mem_filter hc
    obtain ⟨e, he, hecid⟩ := List.mem_map.mp (hce c hcmem)
    have hkepte : (delete_chunks_for_file s fid).embeddings =
        s.embeddings.filter fun e =>
          !(((s.chunks.filter fun c2 => decide (c2.file_id = fid)).map
            ChunkRow.chunk_id).any fun cid => decide (cid = e.chunk_id)) := rfl
    rw [List.mem_map]
    refine ⟨e, ?_, hecid⟩
    rw [hkepte, List.mem_filter]
    refine ⟨he, ?_⟩
    rcases hb : (((s.chunks.filter fun c2 => decide (c2.file_id = fid)).map
        ChunkRow.chunk_id).any fun cid => decide (cid = e.chunk_id)) with _ | _
    · rw [hb]
      rfl
    · exfalso
      rw [List.any_eq_true] at hb
      obtain ⟨cid, hciddoomed, hcideq⟩ := hb
      obtain ⟨c2, hc2, rfl⟩ := List.mem_map.mp hciddoomed
      have hc2mem : c2 ∈ s.chunks := List.mem_of_mem_filter hc2
      have hc2fid := List.of_mem_filter hc2
      have hceq : c2 = c := by
        refine nodup_map_inj ChunkRow.chunk_id s.chunks hcid c2 c hc2mem hcmem ?_
        have : c2.chunk_id = e.chunk_id := by simpa using hcideq
        rw [this, hecid]
      have hmemkeep := List.of_mem_filter hc
      rw [← hceq] at hmemkeep
      simp only [decide_eq_true_eq] at hc2fid
      rw [hc2fid] at hmemkeep
      simp at hmemkeep
  · rw [chunkIdxs, hkept, List.filter_filter]
    have : (s.chunks.filter fun c =>
        decide (c.file_id = fid) && !decide (c.file_id = fid)) = [] := by
      rw [List.filter_eq_nil_iff]
      intro c _
      by_cases hcf : c.file_id = fid <;> simp [hcf]
    rw [this, List.map_nil]

theorem pair_insert_inv (s : DbState) (row : ChunkRow) (model : Str) (dim : ℕ)
    (hInv : Inv s)
    (hfid : row.file_id ∈ s.files.map FileRow.id)
    (hidx : row.chunk_index = (chunkIdxs s row.file_id).length)
    (s1 s2 : DbState) (h1 : insert_chunk s row = .ok s1)
    (h2 : insert_embedding s1 row.chunk_id model dim = .ok s2) :
    Inv s2 ∧ s2.chunks = s.chunks ++ [row]
    ∧ (∀ fid2, fid2 ≠ row.file_id → chunkIdxs s2 fid2 = chunkIdxs s fid2)
    ∧ s2.files = s.files ∧ s2.nextId = s.nextId := by
  obtain ⟨hid, hpath, hlt, hfk, hcid, hcont, heid, hec, hce⟩ := hInv
  rw [insert_chunk] at h1
  split at h1
  · cases h1
  · rename_i hfresh
    cases h1
    rw [insert_embedding] at h2
    split at h2
    · cases h2
    · split at h2
      · -- the update branch is unreachable: the chunk id is fresh
        exfalso
        rename_i hembany
        rw [List.any_eq_true] at hembany
        obtain ⟨e, he, heq⟩ := hembany
        have : e.chunk_id ∈ s.chunks.map ChunkRow.chunk_id := hec e he
        rw [show e.chunk_id = row.chunk_id from by simpa using heq] at this
        exact hfresh (List.any_eq_true.mpr (by
          obtain ⟨c, hcm, hcide⟩ := List.mem_map.mp this
          exact ⟨c, hcm, by simp [hcide]⟩))
      · cases h2
        have hfreshcid : row.chunk_id ∉ s.chunks.map ChunkRow.chunk_id := by
          intro hmem
          obtain ⟨c, hcm, hcide⟩ := List.mem_map.mp hmem
          exact hfresh (List.any_eq_true.mpr ⟨c, hcm, by simp [hcide]⟩)
        have hfreshemb : row.chunk_id ∉ s.embeddings.map EmbeddingRow.chunk_id := by
          intro hmem
          obtain ⟨e, hem, heq⟩ := List.mem_map.mp hmem
          exact hfreshcid (heq ▸ hec e hem)
        have hIdxsEq : ∀ fid2, fid2 ≠ row.file_id →
            (List.filter (fun c => decide (c.file_id = fid2)) (s.chunks ++ [row])) =
              List.filter (fun c => decide (c.file_id = fid2)) s.chunks := by
          intro fid2 hne
          rw [List.filter_append]
          have : List.filter (fun c => decide (c.file_id = fid2)) [row] = [] := by
            rw [List.filter_eq_nil_iff]
            intro c hcm
            rcases List.mem_singleton.mp hcm with rfl
            simp only [decide_eq_true_eq]
            omega
          rw [this, List.append_nil]
        refine ⟨⟨hid, hpath, hlt, ?_, ?_, ?_, ?_, ?_, ?_⟩, rfl, ?_, rfl, rfl⟩
        · intro c hc
          rcases List.mem_append.mp hc with h | h
          · exact hfk c h
          · rcases List.mem_singleton.mp h with rfl
            obtain ⟨f, hf, hfe⟩ := List.mem_map.mp hfid
            exact ⟨f, hf, hfe.symm⟩
        · rw [List.map_append, List.nodup_append]
          exact ⟨hcid, by simp, fun cid hcm => by
            simp only [List.map_cons, List.map_nil, List.mem_singleton]
            intro hcontra
            exact hfreshcid (hcontra ▸ hcm)⟩
        · intro f hf
          by_cases hfeq : f.id = row.file_id
          · rw [chunkIdxs]
            simp only
            rw [hfeq, List.filter_append]
            have hrow : List.filter (fun c => decide (c.file_id = row.file_id)) [row] =
                [row] := by simp [List.filter]
            rw [hrow, List.map_append, List.map_cons, List.map_nil]
            have hold := hcont f hf
            rw [chunkIdxs] at hold
            rw [hfeq] at hold
            rw [hold, hidx, chunkIdxs]
            rw [List.length_append, List.length_range]
            simp only [List.length_cons, List.length_nil]
            rw [← List.range_succ]
          · rw [chunkIdxs]
            simp only
            rw [hIdxsEq f.id hfeq, ← chunkIdxs]
            exact hcont f hf
        · rw [List.map_append, List.nodup_append]
          exact ⟨heid, by simp, fun cid hcm => by
            simp only [List.map_cons, List.map_nil, List.mem_singleton]
            intro hcontra
            exact hfreshemb (hcontra ▸ hcm)⟩
        · intro e he
          rcases List.mem_append.mp he with h | h
          · rw [List.map_append]
            exact List.mem_append_left _ (hec e h)
          · rcases List.mem_singleton.mp h with rfl
            rw [List.map_append]
            exact List.mem_append_right _ (by simp)
        · intro c hc
          rcases List.mem_append.mp hc with h | h
          · rw [List.map_append]
            exact List.mem_append_left _ (hce c h)
          · rcases List.mem_singleton.mp h with rfl
            rw [List.map_append]
            exact List.mem_append_right _ (by simp)
        · intro fid2 hne
          rw [chunkIdxs, chunkIdxs]
          simp only
          rw [hIdxsEq fid2 hne]

theorem insertChunks_inv (model : Str) (embed : Str → List ℚ) (fid : ℕ) :
    ∀ (cs : List MChunk) (s s2 : DbState),
      Inv s → fid ∈ s.files.map FileRow.id →
      cs.map MChunk.chunk_index = List.range' (chunkIdxs s fid).length cs.length →
      insertChunks model embed fid s cs = .ok s2 → Inv s2 := by
  intro cs
  induction cs with
  | nil =>
      intro s s2 hInv _ _ hrun
      rw [insertChunks] at hrun
      cases hrun
      exact hInv
  | cons c rest ih =>
      intro s s2 hInv hfid hidx hrun
      rw [insertChunks] at hrun
      rcases hr1 : insert_chunk s
          ⟨c.chunk_id, fid, c.chunk_index, c.heading_path, c.content, c.token_count⟩ with
        e1 | s1
      · rw [hr1] at hrun
        cases hrun
      · rw [hr1] at hrun
        simp only [Bind.bind, Except.bind] at hrun
        rcases hr2 : insert_embedding s1 c.chunk_id model (embed c.content).length with
          e2 | sMid
        · rw [hr2] at hrun
          cases hrun
        · rw [hr2] at hrun
          simp only [Bind.bind, Except.bind] at hrun
          have hhead : c.chunk_index = (chunkIdxs s fid).length := by
            rw [List.map_cons, List.length_cons, List.range'_succ] at hidx
            exact (List.cons.injEq .. ▸ hidx).1
          obtain ⟨hInvMid, hchunksMid, _, hfilesMid, _⟩ :=
            pair_insert_inv s
              ⟨c.chunk_id, fid, c.chunk_index, c.heading_path, c.content, c.token_count⟩
              model (embed c.content).length hInv hfid hhead s1 sMid hr1 hr2
          have hIdxsMid : chunkIdxs sMid fid = chunkIdxs s fid ++ [c.chunk_index] := by
            rw [chunkIdxs, hchunksMid, List.filter_append]
            have : List.filter (fun c2 => decide (c2.file_id = fid))
                [(⟨c.chunk_id, fid, c.chunk_index, c.heading_path, c.content,
                  c.token_count⟩ : ChunkRow)] =
                [⟨c.chunk_id, fid, c.chunk_index, c.heading_path, c.content,
                  c.token_count⟩] := by
              simp [List.filter]
            rw [this, List.map_append, ← chunkIdxs]
            rfl
          refine ih sMid s2 hInvMid (hfilesMid ▸ hfid) ?_ hrun
          rw [hIdxsMid, List.length_append, List.length_cons, List.length_nil]
          rw [List.map_cons, List.length_cons, List.range'_succ] at hidx
          have h2 := (List.cons.injEq .. ▸ hidx).2
          rw [h2]

theorem indexFile_inv (maxC minC : ℕ) (model : Str) (embed : Str → List ℚ)
    (s : DbState) (f : FsFile) (sha : Str) (s2 : DbState) (hInv : Inv s)
    (hrun : indexFile maxC minC model embed s f sha = .ok s2) : Inv s2 := by
  rw [indexFile] at hrun
  obtain ⟨hInv1, _, _, hfid⟩ :=
    upsert_file_inv s f.rel f.mtime_ns f.size_bytes sha hInv
  obtain ⟨hInv2, hzero, hfiles2, _⟩ :=
    delete_chunks_inv (upsert_file s f.rel f.mtime_ns f.size_bytes sha).1
      (upsert_file s f.rel f.mtime_ns f.size_bytes sha).2 hInv1
  refine insertChunks_inv model embed _ _ _ s2 hInv2 ?_ ?_ hrun
  · rw [hfiles2]
    exact hfid
  · rw [hzero, chunk_markdown_idx]
    rw [List.range_eq_range']
    rfl

theorem reindexLoop_inv (maxC minC : ℕ) (model : Str) (embed : Str → List ℚ)
    (inc exc : List Str) (force : Bool) (metaMap : Str → Option FileRow) :
    ∀ (candidates : List FsFile) (s : DbState) (r : ReindexResult)
      (s2 : DbState) (r2 : ReindexResult),
      Inv s →
      reindexLoop maxC minC model embed inc exc force metaMap candidates s r =
        .ok (s2, r2) → Inv s2 := by
  intro candidates
  induction candidates with
  | nil =>
      intro s r s2 r2 hInv hrun
      rw [reindexLoop] at hrun
      cases hrun
      exact hInv
  | cons f rest ih =>
      intro s r s2 r2 hInv hrun
      rw [reindexLoop] at hrun
      split at hrun
      · exact ih s r s2 r2 hInv hrun
      · simp only at hrun
        split at hrun
        · -- metaMap has a row for this path
          split at hrun
          · exact ih s _ s2 r2 hInv hrun
          · split at hrun
            · exact ih _ _ s2 r2
                (upsert_file_inv s f.rel f.mtime_ns f.size_bytes
                  (sha256hexStr f.bytes) hInv).1 hrun
            · simp only [Bind.bind, Except.bind] at hrun
              rcases hidxf : indexFile maxC minC model embed s f (sha256hexStr f.bytes)
                with e1 | sMid
              · rw [hidxf] at hrun
                cases hrun
              · rw [hidxf] at hrun
                exact ih sMid _ s2 r2
                  (indexFile_inv maxC minC model embed s f _ sMid hInv hidxf) hrun
        · -- no previous row: always a full index
          simp only [Bind.bind, Except.bind] at hrun
          rcases hidxf : indexFile maxC minC model embed s f (sha256hexStr f.bytes)
            with e1 | sMid
          · rw [hidxf] at hrun
            cases hrun
          · rw [hidxf] at hrun
            exact ih sMid _ s2 r2
              (indexFile_inv maxC minC model embed s f _ sMid hInv hidxf) hrun

/-- Claim C4: `rrf_fuse` assigns every chunk id appearing in at least one input
ranking the score `Σ 1/(k+r)` over its 1-based ranks `r` in each list, and
returns the ids ordered by descending fused score; for
`lexical = [a,b,c]`, `semantic = [b,d,a]`, `k = 60`: `b` ranks first, `a`
appears, and every score is exactly its `1/(60+rank)` sum. -/
theorem rrf_fuse_correct (rankings : List (List Str)) (k : ℕ) :
    (∀ id, (∃ s, (id, s) ∈ rrf_fuse rankings k) ↔ ∃ l ∈ rankings, id ∈ l)
    ∧ (∀ p ∈ rrf_fuse rankings k, p.2 = specScore rankings k p.1)
    ∧ (rrf_fuse rankings k).Pairwise (fun a b => b.2 ≤ a.2)
    ∧ rrf_fuse [[str "a", str "b", str "c"], [str "b", str "d", str "a"]] 60 =
        [(str "b", 1/62 + 1/61), (str "a", 1/61 + 1/63), (str "d", 1/62), (str "c", 1/63)] := by
  have hperm := sortByScoreDesc_perm
    (rankings.foldl (fun s ranked => addRanking k s ranked 1) [])
  refine ⟨fun id => ?_, fun p hp => ?_, pairwise_sortByScoreDesc _, ?_⟩
  · constructor
    · rintro ⟨s, hs⟩
      have : id ∈ keysOf (rankings.foldl (fun s ranked => addRanking k s ranked 1) []) :=
        (mem_keysOf_iff _ id).mpr ⟨s, hperm.mem_iff.mp hs⟩
      simpa [keysOf] using (mem_keysOf_foldRankings rankings k [] id).mp this
    · intro h
      have : id ∈ keysOf (rankings.foldl (fun s ranked => addRanking k s ranked 1) []) :=
        (mem_keysOf_foldRankings rankings k [] id).mpr (Or.inr h)
      obtain ⟨s, hs⟩ := (mem_keysOf_iff _ id).mp this
      exact ⟨s, hperm.mem_iff.mpr hs⟩
  · have hnd : (keysOf (rankings.foldl (fun s ranked => addRanking k s ranked 1) [])).Nodup :=
      nodup_keysOf_foldRankings rankings k [] (by simp [keysOf])
    have hmem := hperm.mem_iff.mp hp
    have := scoreOf_eq_of_mem _ p.1 p.2 hnd (by simpa using hmem)
    rw [← this, scoreOf_foldRankings]
    simp [scoreOf]
  · norm_num +decide [rrf_fuse, addRanking, bumpScore, sortByScoreDesc, insertDesc, str]

/-- Claim C6: after `BackgroundIndexer.shutdown()`, every job that was queued
but never started is `failed` with error `"cancelled: server shutdown"`
(which contains `"shutdown"`), every subsequent `submit()` raises, and no
job is newly enqueued (the job-id list is unchanged and the queue empty). -/
theorem shutdown_behavior (s : BgState) :
    (∀ id j, id ∈ s.queue → (id, j) ∈ s.jobs → j.status = .queued →
        (id, ⟨.failed, some (str "cancelled: server shutdown")⟩) ∈ (shutdown s).jobs)
    ∧ hasSub (str "cancelled: server shutdown") (str "shutdown") = true
    ∧ (∀ jobId, submit (shutdown s) jobId = .error (str "BackgroundIndexer is shut down"))
    ∧ (shutdown s).jobs.map Prod.fst = s.jobs.map Prod.fst
    ∧ (shutdown s).queue = [] := by
  refine ⟨fun id j hq hj hst => ?_, by decide, fun jobId => ?_, ?_, rfl⟩
  · exact mem_foldl_markCancelled s.queue s.jobs id j hq hj hst
  · rw [submit]
    simp [shutdown]
  · exact map_fst_foldl_markCancelled s.queue s.jobs

/-- Claim C5: a job whose callback raises a transient storage-engine error
twice and then succeeds ends `completed` with `retries = 2` (the callback ran
3 times); a job whose callback raises a non-transient error ends `failed`
with `retries = 0` after exactly one invocation. -/
theorem background_retry_policy :
    (∀ (A : Type) (maxRetries : ℕ) (run : ℕ → Except PyExc A) (shutdownWait : ℕ → Bool)
        (e0 e1 : PyExc) (r : A),
        is_transient e0 = true → is_transient e1 = true →
        run 0 = .error e0 → run 1 = .error e1 → run 2 = .ok r →
        2 ≤ maxRetries → (∀ n, shutdownWait n = false) →
        executeWithRetry maxRetries run shutdownWait = ⟨.completed, some r, none, 2, 3⟩)
    ∧ (∀ (A : Type) (maxRetries : ℕ) (run : ℕ → Except PyExc A) (shutdownWait : ℕ → Bool)
        (e : PyExc),
        is_transient e = false → run 0 = .error e →
        executeWithRetry maxRetries run shutdownWait = ⟨.failed, none, some e.message, 0, 1⟩) := by
  constructor
  · intro A maxR run sw e0 e1 r ht0 ht1 h0 h1 h2 hmax hsw
    rw [executeWithRetry,
      retryLoop_retry maxR run sw 0 e0 h0 ht0 (by omega) (hsw 1),
      retryLoop_retry maxR run sw 1 e1 h1 ht1 (by omega) (hsw 2),
      retryLoop_ok maxR run sw 2 r h2]
  · intro A maxR run sw e hnt h0
    rw [executeWithRetry, retryLoop_fail maxR run sw 0 e h0 (by simp [hnt])]

/-- Claim C3: `lexical_search` never surfaces an FTS syntax-class error:
a query with no word characters returns `[]` without consulting the engine;
a syntax-class error on the quoted OR-joined primary form triggers a retry
with the bare space-joined terms (so, whenever the bare form does not itself
produce a syntax-class error — which FTS5 guarantees for bare word-character
terms reached through this path — no syntax-class error escapes); and the
four queries named by the spec behave as stated. -/
theorem lexical_search_no_fts_error :
    (∀ (Row : Type) (ex : Str → Except Str (List Row)) (query : Str),
        (∀ c ∈ query, isWordChar c = false) → lexical_search ex query = .ok [])
    ∧ (∀ (Row : Type) (ex : Str → Except Str (List Row)) (query m : Str),
        (∀ safe m2, _normalize_fts_query query = some safe → ex safe = .error m2 →
          _is_fts_query_error m2 = false) →
        lexical_search ex query = .error m → _is_fts_query_error m = false)
    ∧ (∀ (Row : Type) (ex : Str → Except Str (List Row)) (rows : List Row),
        ex (str "\"streamable\" OR \"http\"") = .ok rows →
        lexical_search ex (str "streamable-http") = .ok rows
        ∧ lexical_search ex (str "\"streamable-http") = .ok rows)
    ∧ (∀ (Row : Type) (ex : Str → Except Str (List Row)) (rows : List Row),
        ex (str "\"server\" OR \"setup\" OR \"tools\"") = .ok rows →
        lexical_search ex (str "server setup, tools") = .ok rows)
    ∧ (∀ (Row : Type) (ex : Str → Except Str (List Row)),
        lexical_search ex (str ".,:()\"") = .ok []) := by
  refine ⟨fun Row ex query hq => ?_, fun Row ex query m hcontract hrun => ?_,
    fun Row ex rows hex => ⟨?_, ?_⟩, fun Row ex rows hex => ?_, fun Row ex => ?_⟩
  · rw [lexical_search]
    rw [show _compile_fts_query query = none from ?_]
    rw [_compile_fts_query]
    simp [findWords, tokenRuns_eq_nil isWordChar query hq]
  · rw [lexical_search] at hrun
    split at hrun
    · cases hrun
    · split at hrun
      · cases hrun
      · split at hrun
        · split at hrun
          · cases hrun
          · rename_i safe hn
            exact hcontract safe m hn hrun
        · rename_i hcls
          cases hrun
          simpa using hcls
  · have hc : _compile_fts_query (str "streamable-http") =
        some (str "\"streamable\" OR \"http\"") := by decide
    rw [lexical_search, hc]
    simp [hex]
  · have hc : _compile_fts_query (str "\"streamable-http") =
        some (str "\"streamable\" OR \"http\"") := by decide
    rw [lexical_search, hc]
    simp [hex]
  · have hc : _compile_fts_query (str "server setup, tools") =
        some (str "\"server\" OR \"setup\" OR \"tools\"") := by decide
    rw [lexical_search, hc]
    simp [hex]
  · have hc : _compile_fts_query (str ".,:()\"") = none := by decide
    rw [lexical_search, hc]

/-- Claim C8 (amended): `hash_embed` always returns a vector of length
`dim`; when the text has no tokens it returns the zero vector; every
per-token signed weight has absolute value in `[1.0, 2.0]` (closed at 2,
reached when digest byte 5 is 255); and whenever the accumulated vector is
nonzero, the returned normalized vector has squared L2 norm exactly 1 in
exact arithmetic. -/
theorem hash_embed_normalized (sha : Str → List ℕ) (text : Str) (dim : ℕ) :
    (hashAccum sha text dim).length = dim
    ∧ (hashTokens text = [] → hashAccum sha text dim = List.replicate dim 0)
    ∧ (∀ tok, (sha tok).getD 5 0 ≤ 255 →
        1 ≤ |signedWeight (sha tok)| ∧ |signedWeight (sha tok)| ≤ 2)
    ∧ (sumSq (hashAccum sha text dim) ≠ 0 →
        ((hashAccum sha text dim).map fun x : ℚ =>
          ((x : ℝ) / Real.sqrt ((sumSq (hashAccum sha text dim) : ℚ) : ℝ)) ^ 2).sum = 1) := by
  refine ⟨length_hashAccum sha text dim, fun h => ?_, fun tok hb => ?_, fun hs => ?_⟩
  · rw [hashAccum, h, List.foldl_nil]
  · have hb0 : (0 : ℚ) ≤ ((sha tok).getD 5 0 : ℚ) / 255 := by positivity
    have hb1 : ((sha tok).getD 5 0 : ℚ) / 255 ≤ 1 := by
      rw [div_le_one (by norm_num)]
      exact_mod_cast hb
    have hw : (0 : ℚ) < 1 + ((sha tok).getD 5 0 : ℚ) / 255 := by linarith
    have habs : |signedWeight (sha tok)| = 1 + ((sha tok).getD 5 0 : ℚ) / 255 := by
      rw [signedWeight]
      split
      · rw [abs_mul, abs_neg, abs_one, one_mul, abs_of_pos hw]
      · rw [abs_mul, abs_one, one_mul, abs_of_pos hw]
    rw [habs]
    constructor
    · linarith
    · linarith
  · rw [sum_div_sq]
    have hnn : (0 : ℝ) ≤ ((sumSq (hashAccum sha text dim) : ℚ) : ℝ) := by
      exact_mod_cast sumSq_nonneg _
    have hne : ((sumSq (hashAccum sha text dim) : ℚ) : ℝ) ≠ 0 := by
      exact_mod_cast hs
    rw [Real.sq_sqrt hnn]
    exact div_self hne

/-- Counterexample to claim C8 as stated: the non-empty text `"!!!"` has no
tokens, so `hash_embed` returns the zero vector whose L2 norm 0 is not
within `1e-6` of 1; and the token `"t518"` has SHA-256 digest byte 5 equal
to 255, so its accumulated weight has absolute value exactly 2.0, outside
the claimed `[1.0, 2.0)`. -/
theorem hash_embed_claim_false :
    ((str "!!!") ≠ [] ∧ hashTokens (str "!!!") = []
      ∧ hashAccum shaTok (str "!!!") 8 = List.replicate 8 0
      ∧ ¬ |Real.sqrt ((sumSq (hashAccum shaTok (str "!!!") 8) : ℚ) : ℝ) - 1| ≤ 1 / 1000000)
    ∧ ((shaTok (str "t518")).getD 5 0 = 255
      ∧ |signedWeight (shaTok (str "t518"))| = 2
      ∧ ¬ |signedWeight (shaTok (str "t518"))| < 2) := by
  have htoks : hashTokens (str "!!!") = [] := by decide
  have hacc : hashAccum shaTok (str "!!!") 8 = List.replicate 8 0 := by
    rw [hashAccum, htoks, List.foldl_nil]
  have hzero : sumSq (hashAccum shaTok (str "!!!") 8) = 0 := by
    rw [hacc]
    norm_num [sumSq, List.replicate]
  have h5 : (shaTok (str "t518")).getD 5 0 = 255 := by decide
  have h4 : (shaTok (str "t518")).getD 4 0 = 61 := by decide
  have hsw : signedWeight (shaTok (str "t518")) = -2 := by
    rw [signedWeight, h4, h5]
    norm_num
  refine ⟨⟨by decide, htoks, hacc, ?_⟩, h5, by rw [hsw]; norm_num, by rw [hsw]; norm_num⟩
  rw [hzero]
  rw [show (((0 : ℚ) : ℝ)) = 0 from by norm_num, Real.sqrt_zero]
  norm_num

/-- Claim C7: every chunk returned by `chunk_markdown` has content of length
at least `min_chunk_chars` (shorter accumulations are dropped), and code
fences are never split across chunks: every chunk's content is the
`"\n\n"`-join of whole parts of its section, and every part of every
section is either the whole fence string of one `block_code` node or the
stripped text of a non-code node — so any fence material inside a chunk is
a complete fence. -/
theorem chunk_markdown_guarantees (ast : List MdNode) (path : Str) (maxC minC : ℕ) :
    (∀ c ∈ chunk_markdown ast path maxC minC,
        minC ≤ c.content.length
        ∧ ∃ hp parts, (hp, parts) ∈ sectionsOf ast ∧ c.heading_path = hp
            ∧ ∃ ps, (∀ p ∈ ps, p ∈ parts) ∧ c.content = joinNN ps)
    ∧ (∀ sec ∈ sectionsOf ast, ∀ p ∈ sec.2,
        (∃ info raw, MdNode.blockCode info raw ∈ ast ∧ p = fenceStr info raw)
        ∨ (∃ t, MdNode.other t ∈ ast ∧ p = stripStr t)) := by
  constructor
  · intro c hc
    exact chunkSections_spec path maxC minC (sectionsOf ast)
      (fun sec hs p hp => (sections_parts ast sec hs p hp).1) 0 c hc
  · intro sec hs p hp
    exact (sections_parts ast sec hs p hp).2

/-- Claim C10: a single paragraph (or fenced code block) longer than
`max_chunk_chars` is never subdivided: whenever its stripped length is at
least `min_chunk_chars`, it is emitted as one oversized chunk whose content
is the whole block. -/
theorem chunk_markdown_oversized (path : Str) (maxC minC : ℕ) :
    (∀ t : Str, 1 ≤ minC → minC ≤ (stripStr t).length → maxC < (stripStr t).length →
      chunk_markdown [MdNode.other t] path maxC minC =
        [⟨make_chunk_id path 0, 0, str "", stripStr t, tokenCount (stripStr t)⟩])
    ∧ (∀ info raw : Str, 1 ≤ minC → minC ≤ (fenceStr info raw).length →
        maxC < (fenceStr info raw).length →
      chunk_markdown [MdNode.blockCode info raw] path maxC minC =
        [⟨make_chunk_id path 0, 0, str "", fenceStr info raw,
          tokenCount (fenceStr info raw)⟩]) := by
  constructor
  · intro t h1 h2 h3
    have hne : stripStr t ≠ [] := by
      intro h
      rw [h] at h2
      simp at h2
      omega
    have hsec : sectionsOf [MdNode.other t] = [(str "", [stripStr t])] := by
      rw [sectionsOf, buildSections, if_neg hne, buildSections, appendToLast_one]
      rfl
    rw [chunk_markdown, hsec]
    exact chunkSections_single_oversized path maxC minC (str "") (stripStr t) h1
      (stripStr_idem t) h2 h3
  · intro info raw h1 h2 h3
    have hsec : sectionsOf [MdNode.blockCode info raw] =
        [(str "", [fenceStr info raw])] := by
      rw [sectionsOf, buildSections, buildSections, appendToLast_one]
      rfl
    rw [chunk_markdown, hsec]
    refine chunkSections_single_oversized path maxC minC (str "") (fenceStr info raw) h1
      ?_ h2 h3
    unfold fenceStr
    exact stripStr_idem _

/-- Claim C1: on a fully indexed, unchanged tree, `reindex_path` with
`force=false` returns `indexed_files = 0` and `skipped_files` equal to the
number of candidate files passing the include/exclude globs, with every
skip decided against the bulk `get_all_file_meta` map, no file bytes read
(`reads = []`), and the store untouched. -/
theorem reindex_unchanged_tree (maxC minC : ℕ) (model : Str) (embed : Str → List ℚ)
    (inc exc : List Str) (candidates : List FsFile) (s : DbState)
    (h : ∀ f ∈ candidates, is_included inc f.rel = true → is_excluded exc f.rel = false →
      ∃ m, get_all_file_meta s f.rel = some m ∧ m.mtime_ns = f.mtime_ns ∧
        m.size_bytes = f.size_bytes) :
    reindex_path maxC minC model embed inc exc false candidates s =
      .ok (s, ⟨0,
        (candidates.filter fun f => is_included inc f.rel && !is_excluded exc f.rel).length,
        (candidates.filter fun f => is_included inc f.rel && !is_excluded exc f.rel).map
          FsFile.rel,
        []⟩) := by
  rw [reindex_path, reindexLoop_fastpath maxC minC model embed inc exc
    (get_all_file_meta s) candidates s ⟨0, 0, [], []⟩ h]
  simp

/-- Claim C9: `delete_files_except` with an empty paths list deletes every
row of `files` — cascading to all chunks and embeddings — and returns the
previous file count, so a prune after a pass that saw zero files wipes the
entire index. -/
theorem delete_files_except_empty (s : DbState)
    (hfk : ∀ c ∈ s.chunks, ∃ f ∈ s.files, c.file_id = f.id)
    (hemb : ∀ e ∈ s.embeddings, ∃ c ∈ s.chunks, e.chunk_id = c.chunk_id) :
    delete_files_except s [] = (⟨[], [], [], s.nextId⟩, s.files.length) := by
  rw [delete_files_except, if_pos rfl, deleteFilesWhere]
  have hall : ∀ c ∈ s.chunks,
      (((s.files.filter fun _ => true).map FileRow.id).any fun i =>
        decide (i = c.file_id)) = true := by
    intro c hc
    obtain ⟨f, hf, hcf⟩ := hfk c hc
    rw [List.filter_true, List.any_eq_true]
    exact ⟨f.id, List.mem_map_of_mem _ hf, by simp [hcf]⟩
  have hfiles : (s.files.filter fun _ => !true) = [] := by
    rw [List.filter_eq_nil_iff]
    simp
  have hchunks : (s.chunks.filter fun c =>
      !(((s.files.filter fun _ => true).map FileRow.id).any fun i =>
        decide (i = c.file_id))) = [] := by
    rw [List.filter_eq_nil_iff]
    intro c hc
    obtain ⟨f, hf, hcf⟩ := hfk c hc
    simp
    exact ⟨f, hf, hcf.symm⟩
  have hkeep : (s.chunks.filter fun c =>
      ((s.files.filter fun _ => true).map FileRow.id).any fun i =>
        decide (i = c.file_id)) = s.chunks :=
    List.filter_eq_self.mpr hall
  have hembs : (s.embeddings.filter fun e =>
      !(((s.chunks.filter fun c =>
          ((s.files.filter fun _ => true).map FileRow.id).any fun i =>
            decide (i = c.file_id)).map ChunkRow.chunk_id).any fun cid =>
        decide (cid = e.chunk_id))) = [] := by
    rw [List.filter_eq_nil_iff]
    intro e he
    obtain ⟨c, hc, hcid⟩ := hemb e he
    rw [hkeep]
    have hany : ((s.chunks.map ChunkRow.chunk_id).any fun cid =>
        decide (cid = e.chunk_id)) = true := by
      rw [List.any_eq_true]
      exact ⟨c.chunk_id, List.mem_map_of_mem _ hc, by simp [hcid]⟩
    simp [hany]
  rw [hfiles, hchunks, hembs]

/-- Claim C2: after every successful `reindex_path` run starting from a
state satisfying the data-model invariants, every file's chunks carry the
contiguous `chunk_index` sequence `0..N-1` and the total embedding count
equals the total chunk count. -/
theorem reindex_invariants (maxC minC : ℕ) (model : Str) (embed : Str → List ℚ)
    (inc exc : List Str) (force : Bool) (candidates : List FsFile)
    (s s2 : DbState) (r2 : ReindexResult) (hInv : Inv s)
    (hrun : reindex_path maxC minC model embed inc exc force candidates s =
      .ok (s2, r2)) :
    (∀ f ∈ s2.files, chunkIdxs s2 f.id = List.range (chunkIdxs s2 f.id).length)
    ∧ s2.chunks.length = s2.embeddings.length := by
  have hInv2 : Inv s2 :=
    reindexLoop_inv maxC minC model embed inc exc force (get_all_file_meta s)
      candidates s ⟨0, 0, [], []⟩ s2 r2 hInv hrun
  obtain ⟨_, _, _, _, hcid, hcont, heid, hec, hce⟩ := hInv2
  refine ⟨hcont, ?_⟩
  have := length_eq_of_nodup_of_mem_iff (s2.chunks.map ChunkRow.chunk_id)
    (s2.embeddings.map EmbeddingRow.chunk_id) hcid heid ?_
  · rw [List.length_map, List.length_map] at this
    exact this
  · intro cid
    constructor
    · intro h
      obtain ⟨c, hc, rfl⟩ := List.mem_map.mp h
      exact hce c hc
    · intro h
      obtain ⟨e, he, rfl⟩ := List.mem_map.mp h
      exact hec e he

/-- Witness for `rrf_fuse_correct`: at the concrete example rankings, the
chunk id `a` is in the fused output with score exactly `1/61 + 1/63`. -/
theorem rrf_fuse_correct_witness :
    ((str "a", (1:ℚ)/61 + 1/63) ∈
        rrf_fuse [[str "a", str "b", str "c"], [str "b", str "d", str "a"]] 60)
    ∧ (1:ℚ)/61 + 1/63 =
        specScore [[str "a", str "b", str "c"], [str "b", str "d", str "a"]] 60 (str "a") := by
  have h := rrf_fuse_correct [[str "a", str "b", str "c"], [str "b", str "d", str "a"]] 60
  have hmem : (str "a", (1:ℚ)/61 + 1/63) ∈
      rrf_fuse [[str "a", str "b", str "c"], [str "b", str "d", str "a"]] 60 := by
    rw [h.2.2.2]
    simp
  exact ⟨hmem, h.2.1 _ hmem⟩

/-- Witness for `background_retry_policy`: concrete callbacks, one failing
twice with "database is locked", one failing with a non-transient error. -/
theorem background_retry_policy_witness :
    executeWithRetry 3
        (fun n => if n < 2 then .error ⟨true, str "database is locked"⟩ else .ok ())
        (fun _ => false) = ⟨.completed, some (), none, 2, 3⟩
    ∧ executeWithRetry 3
        (fun _ => (.error ⟨false, str "no such table: chunks"⟩ : Except PyExc Unit))
        (fun _ => false) = ⟨.failed, none, some (str "no such table: chunks"), 0, 1⟩ := by
  constructor
  · exact background_retry_policy.1 Unit 3 _ _ ⟨true, str "database is locked"⟩
      ⟨true, str "database is locked"⟩ () (by decide) (by decide) rfl rfl rfl
      (by omega) (fun _ => rfl)
  · exact background_retry_policy.2 Unit 3 _ _ ⟨false, str "no such table: chunks"⟩
      (by decide) rfl

/-- Witness for `hash_embed_normalized` at concrete texts: `"!!!"` (no
tokens), the token `"t518"`, and the single-token text `"a"` whose
normalized vector has squared norm 1. -/
theorem hash_embed_normalized_witness :
    hashAccum shaTok (str "!!!") 8 = List.replicate 8 0
    ∧ (1 ≤ |signedWeight (shaTok (str "t518"))| ∧ |signedWeight (shaTok (str "t518"))| ≤ 2)
    ∧ ((hashAccum shaTok (str "a") 4).map fun x : ℚ =>
        ((x : ℝ) / Real.sqrt ((sumSq (hashAccum shaTok (str "a") 4) : ℚ) : ℝ)) ^ 2).sum = 1 := by
  have htoks : hashTokens (str "a") = [str "a"] := by decide
  have hidx : tokenIndex 4 (shaTok (str "a")) = 2 := by decide
  have h4 : (shaTok (str "a")).getD 4 0 = 202 := by decide
  have h5 : (shaTok (str "a")).getD 5 0 = 27 := by decide
  have hw : signedWeight (shaTok (str "a")) = 94 / 85 := by
    rw [signedWeight, h4, h5]
    norm_num
  have hacc : hashAccum shaTok (str "a") 4 = [0, 0, 94 / 85, 0] := by
    rw [hashAccum, htoks, List.foldl_cons, List.foldl_nil]
    simp only [hidx, hw]
    norm_num [List.replicate, List.set, List.getD]
  have hne : sumSq (hashAccum shaTok (str "a") 4) ≠ 0 := by
    rw [hacc]
    norm_num [sumSq]
  exact ⟨(hash_embed_normalized shaTok (str "!!!") 8).2.1 (by decide),
    (hash_embed_normalized shaTok (str "t518") 8).2.2.1 (str "t518") (by decide),
    (hash_embed_normalized shaTok (str "a") 4).2.2.2 hne⟩

set_option maxRecDepth 100000 in
/-- Witness for `chunk_markdown_guarantees`: a three-node document whose
single emitted chunk satisfies the minimum-length bound. -/
theorem chunk_markdown_guarantees_witness :
    1 ≤ (((chunk_markdown [MdNode.heading 1 (str "T"), MdNode.other (str "hello world"),
        MdNode.blockCode (str "py") (str "x = 1")] (str "docs/a.md") 100 1).headD
        ⟨[], 0, [], [], 0⟩).content).length := by
  have h := (chunk_markdown_guarantees [MdNode.heading 1 (str "T"),
      MdNode.other (str "hello world"), MdNode.blockCode (str "py") (str "x = 1")]
      (str "docs/a.md") 100 1).1
    ((chunk_markdown [MdNode.heading 1 (str "T"), MdNode.other (str "hello world"),
        MdNode.blockCode (str "py") (str "x = 1")] (str "docs/a.md") 100 1).headD
      ⟨[], 0, [], [], 0⟩) (by decide)
  exact h.1

/-- Witness for `chunk_markdown_oversized`: the ten-character paragraph
`" abcdefgh "` with `max_chunk_chars = 5` yields one chunk of length 8. -/
theorem chunk_markdown_oversized_witness :
    chunk_markdown [MdNode.other (str " abcdefgh ")] (str "a.md") 5 1 =
      [⟨make_chunk_id (str "a.md") 0, 0, str "", stripStr (str " abcdefgh "),
        tokenCount (stripStr (str " abcdefgh "))⟩]
    ∧ 5 < (stripStr (str " abcdefgh ")).length :=
  ⟨(chunk_markdown_oversized (str "a.md") 5 1).1 (str " abcdefgh ")
    (by decide) (by decide) (by decide), by decide⟩

/-- Witness for `reindex_unchanged_tree`: a store with one indexed file and
a matching candidate plus a glob-filtered one. -/
theorem reindex_unchanged_tree_witness :
    reindex_path 2000 120 (str "hash-384") (fun _ => []) [str "*.md"] []
      false
      [⟨str "docs/a.md", 11, 7, [104], [MdNode.other (str "h")]⟩,
       ⟨str "skip.txt", 1, 1, [], []⟩]
      ⟨[⟨0, str "docs/a.md", 11, 7, str "aa"⟩], [], [], 1⟩ =
    .ok (⟨[⟨0, str "docs/a.md", 11, 7, str "aa"⟩], [], [], 1⟩,
      ⟨0, 1, [str "docs/a.md"], []⟩) := by
  rw [reindex_unchanged_tree 2000 120 (str "hash-384") (fun _ => []) [str "*.md"] []
    [⟨str "docs/a.md", 11, 7, [104], [MdNode.other (str "h")]⟩,
     ⟨str "skip.txt", 1, 1, [], []⟩]
    ⟨[⟨0, str "docs/a.md", 11, 7, str "aa"⟩], [], [], 1⟩
    ?_]
  · simp only [Except.ok.injEq, Prod.mk.injEq]
    exact ⟨trivial, by decide⟩
  · intro f hf h1 h2
    rcases List.mem_cons.mp hf with rfl | hf2
    · exact ⟨⟨0, str "docs/a.md", 11, 7, str "aa"⟩, by decide, rfl, rfl⟩
    · rcases List.mem_singleton.mp hf2 with rfl
      cases (by decide : ¬ is_included [str "*.md"] (str "skip.txt") = true) h1

/-- Witness for `delete_files_except_empty`: a one-file store with one
chunk and one embedding is wiped and the old file count returned. -/
theorem delete_files_except_empty_witness :
    delete_files_except
      ⟨[⟨0, str "a.md", 1, 2, str "aa"⟩], [⟨str "c1", 0, 0, str "", str "x", 1⟩],
        [⟨str "c1", str "hash-384", 4⟩], 1⟩ [] =
      (⟨[], [], [], 1⟩, 1) :=
  delete_files_except_empty
    ⟨[⟨0, str "a.md", 1, 2, str "aa"⟩], [⟨str "c1", 0, 0, str "", str "x", 1⟩],
      [⟨str "c1", str "hash-384", 4⟩], 1⟩
    (by
      intro c hc
      rcases List.mem_singleton.mp hc with rfl
      exact ⟨⟨0, str "a.md", 1, 2, str "aa"⟩, by simp, rfl⟩)
    (by
      intro e he
      rcases List.mem_singleton.mp he with rfl
      exact ⟨⟨str "c1", 0, 0, str "", str "x", 1⟩, by simp, rfl⟩)

set_option maxRecDepth 1000000 in
/-- Witness for `reindex_invariants`: a full reindex of one Markdown file
into an empty store, evaluated down to the concrete SHA-256-derived rows. -/
theorem reindex_invariants_witness :
    chunkIdxs ⟨[⟨0, str "a.md", 1, 1,
        str "aaa9402664f1a41f40ebbc52c9993eb66aeb366602958fdfaa283b71e64db123"⟩],
      [⟨str "5a7dba74a6999745", 0, 0, str "", str "hello world", 2⟩],
      [⟨str "5a7dba74a6999745", str "hash-384", 1⟩], 1⟩ 0 =
      List.range (chunkIdxs ⟨[⟨0, str "a.md", 1, 1,
          str "aaa9402664f1a41f40ebbc52c9993eb66aeb366602958fdfaa283b71e64db123"⟩],
        [⟨str "5a7dba74a6999745", 0, 0, str "", str "hello world", 2⟩],
        [⟨str "5a7dba74a6999745", str "hash-384", 1⟩], 1⟩ 0).length
    ∧ ([(⟨str "5a7dba74a6999745", 0, 0, str "", str "hello world", 2⟩ : ChunkRow)]).length
      = ([(⟨str "5a7dba74a6999745", str "hash-384", 1⟩ : EmbeddingRow)]).length := by
  have hInv0 : Inv ⟨[], [], [], 0⟩ :=
    ⟨List.nodup_nil, List.nodup_nil, fun f hf => absurd hf (List.not_mem_nil f),
      fun c hc => absurd hc (List.not_mem_nil c), List.nodup_nil,
      fun f hf => absurd hf (List.not_mem_nil f), List.nodup_nil,
      fun e he => absurd he (List.not_mem_nil e),
      fun c hc => absurd hc (List.not_mem_nil c)⟩
  have h := reindex_invariants 100 1 (str "hash-384") (fun _ => [0]) [str "*.md"] []
    false [⟨str "a.md", 1, 1, [104], [MdNode.other (str "hello world")]⟩]
    ⟨[], [], [], 0⟩
    ⟨[⟨0, str "a.md", 1, 1,
        str "aaa9402664f1a41f40ebbc52c9993eb66aeb366602958fdfaa283b71e64db123"⟩],
      [⟨str "5a7dba74a6999745", 0, 0, str "", str "hello world", 2⟩],
      [⟨str "5a7dba74a6999745", str "hash-384", 1⟩], 1⟩
    ⟨1, 0, [str "a.md"], [str "a.md"]⟩ hInv0 (by rfl)
  exact ⟨h.1 ⟨0, str "a.md", 1, 1,
      str "aaa9402664f1a41f40ebbc52c9993eb66aeb366602958fdfaa283b71e64db123"⟩
    (by simp), h.2⟩

/-- Witness for `shutdown_behavior`: a state with one queued job. -/
theorem shutdown_behavior_witness :
    ((str "j1", (⟨.failed, some (str "cancelled: server shutdown")⟩ : BgJob)) ∈
        (shutdown ⟨[(str "j1", ⟨.queued, none⟩)], [str "j1"], false⟩).jobs)
    ∧ (∀ jobId, submit (shutdown ⟨[(str "j1", ⟨.queued, none⟩)], [str "j1"], false⟩) jobId
        = .error (str "BackgroundIndexer is shut down")) := by
  have h := shutdown_behavior ⟨[(str "j1", ⟨.queued, none⟩)], [str "j1"], false⟩
  exact ⟨h.1 (str "j1") ⟨.queued, none⟩ (by decide) (by decide) rfl, h.2.2.1⟩

/-- Witness for `lexical_search_no_fts_error`: a concrete engine oracle. -/
theorem lexical_search_no_fts_error_witness :
    lexical_search (fun _ => (.ok [7] : Except Str (List ℕ))) (str "streamable-http") = .ok [7]
    ∧ lexical_search (fun _ => (.ok [7] : Except Str (List ℕ))) (str ".,:()\"") = .ok [] :=
  ⟨(lexical_search_no_fts_error.2.2.1 ℕ _ [7] rfl).1,
   lexical_search_no_fts_error.2.2.2.2 ℕ _⟩

end Rifflux
